import Mathlib

set_option maxRecDepth 10000

/-!
Shallow embedding of the `goequal` code generator (src/equal/equal.go).

The generator walks Go type definitions and emits, for each named type, an
`Equal<Name>` function as a string.  We embed:

* the type model (`GoType`, `Typ`, `FieldList`) mirroring `go/types` as used
  by the source (`*types.Named`, `*types.Struct`, `*types.Basic`,
  `*types.Slice`, `*types.Array`, `*types.Map`, `*types.Pointer`,
  `*types.Interface`, `*types.Chan`, `*types.Signature`);
* the pure string bookkeeping (`findNextUsableIndex`,
  `findLastUnpairedParantheses`, `getNames`, `getArgs`, `isPointer`);
* the stateful recursive generator (`parseTypeDef`, `parseType`,
  `parseStruct`, `parseNamed`, `parseSlice`, `parseArray`, `parseMap`,
  `parsePointer`), written with an explicit fuel parameter so that every
  definition is a computable structural recursion (the Go original
  terminates via the memoization map; the fuel is only an embedding device
  and we prove a sufficient fuel bound below);
* the import-merging check of `pkg.check` (`checkImports`);
* denotations of the emitted comparison fragments, used to settle the
  semantic halves of the claims.

Package resolution (`go/build`, `go/parser`, `go/importer`) is external to
the core; following the source's use of it, the embedding carries a
`Config` that resolves a named type to its underlying structural type
(`findObjE` models `findObj` + `obj.Type().Underlying()`), tells whether a
package directory lies under GOROOT (`isStd` models the
`strings.HasPrefix(dir, getGOROOT())` test of `getEqualFunctionName`),
gives a package's name (`pkgName` models `buildDefault`), and gives the
local import name a package uses for another (`importsOf` models the
`pkg.imports` map filled in by `pkg.check`).  `log.Fatalf` terminates the
Go process; it is embedded as the `Res.fatal` outcome.
-/

/-- Identity of a named type: local name plus defining package path
(source: `type Type struct { name, pkgPath string }`). -/
structure GoType where
  mk ::
  name : String
  pkgPath : String
deriving DecidableEq, Repr

/-- Basic (primitive) kinds; only `byteK` is distinguished by the generator
(`t.Kind() == types.Byte` in `parseSlice`). -/
inductive BasicKind where
  | intK : BasicKind
  | stringK : BasicKind
  | byteK : BasicKind
  | boolK : BasicKind
deriving DecidableEq, Repr

mutual

/-- Structural shape of a Go type, mirroring the `types.Type` cases the
generator dispatches on in `parseType` / `isPointer`. -/
inductive Typ where
  | basicT (k : BasicKind) : Typ
  | namedT (name : String) (pkgPath : String) : Typ
  | structT (fields : FieldList) : Typ
  | sliceT (elem : Typ) : Typ
  | arrayT (len : Nat) (elem : Typ) : Typ
  | mapT (key : Typ) (elem : Typ) : Typ
  | pointerT (elem : Typ) : Typ
  | interfaceT : Typ
  | chanT : Typ
  | signatureT : Typ

/-- Ordered fields of a struct type (`structType.Field(i)` iteration). -/
inductive FieldList where
  | nil : FieldList
  | cons (name : String) (t : Typ) (rest : FieldList) : FieldList

end

/-- External environment consumed by the generator (type catalog, package
metadata); see the module doc comment. -/
structure Config where
  mk ::
  env : List (GoType × Typ)
  isStd : String → Bool
  pkgName : String → String
  importsOf : String → String → String

/-- Generated code for one named type (source: `type code struct`); the
`imports` set is kept as a list of import paths. -/
structure Code where
  mk ::
  typeName : String
  pkgPath : String
  codeStr : String
  imports : List String
deriving DecidableEq, Repr

/-- The source's `newCode`: fresh unit with empty body and no imports. -/
def newCode (typeName pkgPath : String) : Code :=
  Code.mk typeName pkgPath "" []

/-- Mutable generator state (the fields of `Generator` that the parse
functions read and write): the memo map `equals`, the completion order
`equalsOrder` and the stack `usedTypes`. -/
structure GState where
  mk ::
  equals : List (GoType × Code)
  equalsOrder : List GoType
  usedTypes : List GoType
deriving DecidableEq, Repr

/-- Initial generator state (`NewGenerator`). -/
def initState : GState := GState.mk [] [] []

/-- Outcome of a generator step: normal result, a `log.Fatalf` abort, or
fuel exhaustion (an artifact of the embedding, never reached for the fuel
bound proved below). -/
inductive Res (α : Type) where
  | ok : α → Res α
  | fatal : String → Res α
  | noFuel : Res α
deriving DecidableEq, Repr

/-- Association-list lookup used for the memo map and the environment. -/
def alookup {α β : Type} [DecidableEq α] : List (α × β) → α → Option β
  | [], _ => none
  | (a, b) :: rest, k => if a = k then some b else alookup rest k

/-- Keys of the memo map. -/
def keysE (s : GState) : List GoType := s.equals.map (fun p => p.1)

/-- Replace the stored `code` of one named type (the Go original mutates
the `*code` held in the map). -/
def updateEquals (s : GState) (t : GoType) (f : Code → Code) : GState :=
  GState.mk (s.equals.map (fun p => if p.1 = t then (p.1, f p.2) else p))
    s.equalsOrder s.usedTypes

/-- The source's `findObj` chain (`Generator.findObj` → `pkg.findObj` →
`obj.Type().Underlying()`): resolve a named type to its underlying
structural type; `none` models the `log.Fatalf("Type:%s was not found…")`
path. -/
def findObjE (cfg : Config) (t : GoType) : Option Typ :=
  alookup cfg.env t

/-- The source's `isPointer`: true for `Basic`, `Map`, `Slice`, `Pointer`,
`Interface`, `Chan`, `Signature`; false otherwise. -/
def isPointer : Typ → Bool
  | Typ.basicT _ => true
  | Typ.mapT _ _ => true
  | Typ.sliceT _ => true
  | Typ.pointerT _ => true
  | Typ.interfaceT => true
  | Typ.chanT => true
  | Typ.signatureT => true
  | _ => false

/-- The source's `getArgs`: adjust call arguments to the uniform pointer
convention, reporting whether a dereference was inserted. -/
def getArgs (name1 name2 : String) (isPtr isPointerReference : Bool) :
    String × String × Bool :=
  if isPtr then
    if isPointerReference then
      ("(*" ++ name1 ++ ")", "(*" ++ name2 ++ ")", true)
    else
      (name1, name2, false)
  else
    if isPointerReference then
      (name1, name2, false)
    else
      ("(&" ++ name1 ++ ")", "(&" ++ name2 ++ ")", false)

/-- ASCII digit test (embeds `unicode.IsDigit` on the ASCII path
expressions the generator builds). -/
def isDigitC (c : Char) : Bool := decide ('0' ≤ c) && decide (c ≤ '9')

/-- ASCII letter test (embeds `unicode.IsLetter`; path expressions are
built from Go identifiers and ASCII punctuation). -/
def isLetterC (c : Char) : Bool :=
  (decide ('a' ≤ c) && decide (c ≤ 'z')) || (decide ('A' ≤ c) && decide (c ≤ 'Z'))

/-- The identifier-character test of `getNames`:
`unicode.IsLetter(r) || unicode.IsDigit(r) || r == '_'`. -/
def wordChar (c : Char) : Bool := isLetterC c || isDigitC c || c = '_'

/-- Decimal digit character. -/
def digitChar (n : Nat) : Char := Char.ofNat (48 + n)

/-- Decimal rendering with explicit fuel (embeds `fmt.Sprintf("%d", n)` /
`strconv` decimal formatting for the nonnegative indices the generator
prints). -/
def natReprAux : Nat → Nat → List Char
  | 0, _ => []
  | fuel+1, n =>
    if n < 10 then [digitChar n]
    else natReprAux fuel (n / 10) ++ [digitChar (n % 10)]

/-- Decimal rendering of a natural number. -/
def natRepr (n : Nat) : List Char := natReprAux (n + 1) n

/-- Decimal rendering as a `String`. -/
def natReprS (n : Nat) : String := (natRepr n).asString

/-- Embeds `strconv.Atoi` on the substrings the scanner extracts.  Go's
`Atoi` additionally accepts a leading sign, but a sign character cannot
occur inside a path expression (paths are built from Go identifiers,
brackets, parentheses, dots, `*` and `&`), so digits-only is faithful on
every reachable input. -/
def atoiGo (cs : List Char) : Option Nat :=
  if cs ≠ [] ∧ cs.all isDigitC then
    some (cs.foldl (fun a c => a * 10 + (c.toNat - 48)) 0)
  else none

/-- Indexing into a path string (Go `name[i]`; the default is never hit on
the in-range accesses the scanner performs). -/
def getC (cs : List Char) (i : Nat) : Char := cs.getD i ' '

/-- Go slice `name[i : i+n]` (truncating instead of panicking; the
scanner's guarded reads are always in range). -/
def subAt (cs : List Char) (i n : Nat) : List Char := (cs.drop i).take n

/-- Go slice `name[a:b]`. -/
def sliceCs (cs : List Char) (a b : Nat) : List Char := (cs.take b).drop a

/-- The scanning loop of `findNextUsableIndex` (equal.go:555-572): walk
`i` from the end of the string down, remember the last `]` whose
predecessor is not `[` (`rightSquareBracketIndex`, here `rsb`), jump back
by the length of the searched token after recording it, and return
`index+1` as soon as `name[i:i+len] == "["++key` with a parseable number
up to the recorded bracket.  The first argument is fuel; each Go loop step
decreases `i` by at least one, so fuel `= name.length` suffices and the
function is structurally recursive. -/
def scanGoF (cs t : List Char) : Nat → Nat → Option Nat → Nat
  | 0, _, _ => 1
  | _+1, 0, _ => 1
  | fuel+1, i+1, rsb =>
    let i' := i + 1
    if getC cs i' = ']' && !(getC cs i = '[') then
      scanGoF cs t fuel (i' - t.length) (some i')
    else
      match rsb with
      | some r =>
        if subAt cs i' t.length = t then
          match atoiGo (sliceCs cs (i' + t.length) r) with
          | some n => n + 1
          | none => scanGoF cs t fuel i rsb
        else scanGoF cs t fuel i rsb
      | none => scanGoF cs t fuel i none

/-- The source's `findNextUsableIndex`: find the last integer preceded by
`"["++key` and enclosed in square brackets, plus one; `1` if none. -/
def findNextUsableIndex (name key : String) : Nat :=
  let cs := name.toList
  scanGoF cs ('[' :: key.toList) cs.length (cs.length - 1) none

/-- The stack loop of `findLastUnpairedParantheses`; pushed indices are
consed on the front, so the head is the most recently pushed index.  Go's
`starts[:len(starts)-1]` panics on an unmatched `)`; the embedding drops
the pop instead — the generator only ever applies the function to
balanced fragments of its own path expressions. -/
def flupAux : List Char → List Nat → Nat → List Nat
  | [], acc, _ => acc
  | c :: rest, acc, i =>
    if c = '(' then flupAux rest (i :: acc) (i + 1)
    else if c = ')' then flupAux rest acc.tail (i + 1)
    else flupAux rest acc (i + 1)

/-- The source's `findLastUnpairedParantheses` on character lists; `none`
embeds the `-1` return. -/
def findLastUnpairedParanthesesL (cs : List Char) : Option Nat :=
  match flupAux cs [] 0 with
  | [] => none
  | top :: _ => some top

/-- The source's `findLastUnpairedParantheses`. -/
def findLastUnpairedParantheses (s : String) : Option Nat :=
  findLastUnpairedParanthesesL s.toList

/-- Whether the pattern occurs at position `i`. -/
def matchAt (cs pat : List Char) (i : Nat) : Bool := subAt cs i pat.length = pat

/-- Downward scan for the greatest pattern occurrence below the given
bound. -/
def lastOccurGo (cs pat : List Char) : Nat → Option Nat
  | 0 => none
  | i+1 => if matchAt cs pat i then some i else lastOccurGo cs pat i

/-- Embeds `strings.LastIndex`: the last position at which the pattern
occurs, `none` for `-1`. -/
def lastOccur (cs pat : List Char) : Option Nat :=
  lastOccurGo cs pat cs.length

/-- Whether the pattern occurs anywhere (embeds `strings.Contains`-style
checks used in statements about generated fragments). -/
def containsLB (cs pat : List Char) : Bool :=
  (List.range cs.length).any (fun i => matchAt cs pat i)

/-- Index of the first character satisfying the test, as Go's indexed
`range` loops compute it. -/
def firstIdx (p : Char → Bool) : List Char → Option Nat
  | [] => none
  | c :: rest => if p c then some 0 else (firstIdx p rest).map (fun j => j + 1)

/-- The `"[key"` pattern `getNames` searches for. -/
def keyPat : List Char := ['[', 'k', 'e', 'y']

/-- The variable-renaming tail of `getNames` (equal.go:621-650): locate the
leading identifier and substitute `t1`/`t2` (type position) or prefix
`t1.`/`t2.` (field position).  `none` embeds the
`log.Fatalf("Wrong variable name:%s")` abort. -/
def varNames (cs : List Char) (isType : Bool) : Option (List Char × List Char) :=
  match firstIdx (fun c => wordChar c) cs with
  | none => none
  | some startVar =>
    let endVar :=
      match firstIdx (fun c => !(wordChar c)) (cs.drop startVar) with
      | some k => startVar + k
      | none => cs.length
    if isType then
      some (cs.take startVar ++ "t1".toList ++ cs.drop endVar,
            cs.take startVar ++ "t2".toList ++ cs.drop endVar)
    else
      some (cs.take startVar ++ "t1.".toList ++ cs.drop startVar,
            cs.take startVar ++ "t2.".toList ++ cs.drop startVar)

/-- The source's `getNames` on character lists (equal.go:593-651): if the
path ends in (or contains) a map-index group `[key<digits>]`, substitute
the captured value identifiers `value<digits>1` / `value<digits>2`,
keeping any unpaired `(*` prefix and the trailing suffix; otherwise fall
through to `varNames`. -/
def getNamesL (cs : List Char) (isType : Bool) : Option (List Char × List Char) :=
  match lastOccur cs keyPat with
  | some i =>
    let rest := cs.drop (i + 4)
    match firstIdx (fun c => !(isDigitC c)) rest with
    | some j =>
      if getC rest j = ']' then
        let keyNumber := rest.take j
        let suffix := rest.drop (j + 1)
        let pfx := suffix.foldl (fun acc r1 =>
          if r1 = ')' then
            match findLastUnpairedParanthesesL (cs.take i) with
            | some st => cs.take (st + 2)
            | none => acc
          else acc) []
        some (pfx ++ "value".toList ++ keyNumber ++ ['1'] ++ suffix,
              pfx ++ "value".toList ++ keyNumber ++ ['2'] ++ suffix)
      else varNames cs isType
    | none => varNames cs isType
  | none => varNames cs isType

/-- The source's `getNames` on strings. -/
def getNames (name : String) (isType : Bool) : Option (String × String) :=
  match getNamesL name.toList isType with
  | some (a, b) => some (a.asString, b.asString)
  | none => none

/-- Record an import path in the current unit's import set
(`code.imports[pkgPath] = struct{}{}`; sets are kept as dedup lists). -/
def addImport (s : GState) (cur : GoType) (pkgPath : String) : GState :=
  updateEquals s cur (fun c =>
    Code.mk c.typeName c.pkgPath c.codeStr
      (if pkgPath ∈ c.imports then c.imports else pkgPath :: c.imports))

/-- The source's `getReferenceUpdateImports` (equal.go:357-389): qualify a
symbol relative to the package of the type currently being generated (the
top of `usedTypes`), recording the cross-package import.  Go indexes
`usedTypes[len-1]` unconditionally and would panic on an empty stack;
`fatal` embeds that.  The source's two fallbacks for an unknown local
alias (an already-processed package's `name`, or `buildDefault`)
both yield the package's declared name, embedded as `cfg.pkgName`. -/
def getReferenceUpdateImports (cfg : Config) (s : GState) (pkgPath name : String) :
    Res (String × GState) :=
  match s.usedTypes.getLast? with
  | none => Res.fatal "no current type"
  | some cur =>
    let referencedPackageName :=
      if pkgPath = cur.pkgPath then ""
      else
        let r := cfg.importsOf cur.pkgPath pkgPath
        if r = "" then cfg.pkgName pkgPath else r
    if referencedPackageName = "" then Res.ok (name, s)
    else
      let s1 := addImport s cur pkgPath
      if referencedPackageName = "." then Res.ok (name, s1)
      else Res.ok (referencedPackageName ++ "." ++ name, s1)

/-- The source's `getEqualFunctionName` (equal.go:267-282): a named type
whose package directory lies under GOROOT is foreign (skip, empty call);
an interface is compared via `reflect.DeepEqual` (recording the import);
channels and signatures are skipped; everything else is not custom. -/
def getEqualFunctionNameF (cfg : Config) (s : GState) : Typ → Res ((Bool × String) × GState)
  | Typ.namedT _ pkgPath =>
    if cfg.isStd pkgPath then Res.ok ((true, ""), s) else Res.ok ((false, ""), s)
  | Typ.interfaceT =>
    match getReferenceUpdateImports cfg s "reflect" "DeepEqual" with
    | Res.ok (n, s1) => Res.ok ((true, n), s1)
    | Res.fatal m => Res.fatal m
    | Res.noFuel => Res.noFuel
  | Typ.chanT => Res.ok ((true, ""), s)
  | Typ.signatureT => Res.ok ((true, ""), s)
  | _ => Res.ok ((false, ""), s)

/-- Whether the element type is a byte basic (`t.Kind() == types.Byte`). -/
def isByteBasic : Typ → Bool
  | Typ.basicT BasicKind.byteK => true
  | _ => false

/-- Whether a type is basic (`arrayType.Elem().(*types.Basic)`). -/
def isBasicT : Typ → Bool
  | Typ.basicT _ => true
  | _ => false

/-- Whether a type is named (`pointerType.Elem().(*types.Named)`). -/
def isNamedT : Typ → Bool
  | Typ.namedT _ _ => true
  | _ => false

mutual

/-- The source's `parseTypeDef` (equal.go:315-335): resolve the named
type's underlying type (done by the Go callers via `findObj`, inlined
here), emit the function header — adding the identity / nil prologue when
the underlying type is not naturally pointer-like — register the unit in
`equals` BEFORE recursing (the memoization invariant), push the type on
`usedTypes`, synthesize the body, close the function, store the text,
append to `equalsOrder` and pop the stack.  Fuel `0` is the embedding's
out-of-fuel marker. -/
def parseTypeDefF (cfg : Config) : Nat → GoType → GState → Res GState
  | 0, _, _ => Res.noFuel
  | fuel+1, myType, s =>
    match findObjE cfg myType with
    | none => Res.fatal ("Type:" ++ myType.name ++ " was not found in package:" ++ myType.pkgPath)
    | some typ =>
      let header :=
        if isPointer typ then
          "func Equal" ++ myType.name ++ "(t1, t2 " ++ myType.name ++ ") bool \x7b\n"
        else
          "func Equal" ++ myType.name ++ "(t1, t2 *" ++ myType.name ++ ") bool \x7b\n" ++
            "if t1 == t2 \x7b\nreturn true\n\x7d\nif t1 == nil || t2 == nil \x7b\nreturn false\n\x7d\n"
      let s1 := GState.mk ((myType, newCode myType.name myType.pkgPath) :: s.equals)
        s.equalsOrder (s.usedTypes ++ [myType])
      match parseTypeF cfg fuel myType.name typ true false s1 with
      | Res.ok (body, s2) =>
        let full := header ++ body ++ "return true\n\x7d"
        let s3 := updateEquals s2 myType (fun c => Code.mk c.typeName c.pkgPath full c.imports)
        Res.ok (GState.mk s3.equals (s3.equalsOrder ++ [myType]) (s3.usedTypes.dropLast))
      | Res.fatal m => Res.fatal m
      | Res.noFuel => Res.noFuel

/-- The source's `parseType` (equal.go:393-420): custom/foreign policy
first, then dispatch on the structural kind; unmatched kinds produce the
empty fragment. -/
def parseTypeF (cfg : Config) :
    Nat → String → Typ → Bool → Bool → GState → Res (String × GState)
  | 0, _, _, _, _, _ => Res.noFuel
  | fuel+1, name, typ, isType, isPointerReference, s =>
    match getEqualFunctionNameF cfg s typ with
    | Res.fatal m => Res.fatal m
    | Res.noFuel => Res.noFuel
    | Res.ok ((isCustom, customCall), s1) =>
      if isCustom then
        if customCall = "" then Res.ok ("", s1)
        else
          match getNames name isType with
          | none => Res.fatal ("Wrong variable name:" ++ name)
          | some (n1, n2) =>
            Res.ok ("if !" ++ customCall ++ "(" ++ n1 ++ ", " ++ n2 ++
              ") \x7b\n return false\n\x7d\n", s1)
      else
        match typ with
        | Typ.namedT n p => parseNamedF cfg fuel name n p isType isPointerReference s1
        | Typ.structT fs => parseStructF cfg fuel fs s1
        | Typ.basicT _ =>
          match getNames name isType with
          | none => Res.fatal ("Wrong variable name:" ++ name)
          | some (n1, n2) =>
            Res.ok ("if " ++ n1 ++ " != " ++ n2 ++ " \x7b\nreturn false\n\x7d\n", s1)
        | Typ.sliceT e => parseSliceF cfg fuel name e isType s1
        | Typ.arrayT _ e => parseArrayF cfg fuel name e isType isPointerReference s1
        | Typ.mapT _ e => parseMapF cfg fuel name e isType s1
        | Typ.pointerT e => parsePointerF cfg fuel name e isType s1
        | _ => Res.ok ("", s1)

/-- The source's `parseNamed` (equal.go:424-443): derive the two path
expressions, create the referenced type's unit if the memo map has none,
qualify the callee name, normalize the call arguments to the callee's
pointer convention, and guard the call with an identity / nil check when a
dereference was inserted.  The type's name and package stand for the
`*types.Named` argument. -/
def parseNamedF (cfg : Config) :
    Nat → String → String → String → Bool → Bool → GState → Res (String × GState)
  | 0, _, _, _, _, _, _ => Res.noFuel
  | fuel+1, name, tn, tp, isType, isPointerReference, s =>
    match getNames name isType with
    | none => Res.fatal ("Wrong variable name:" ++ name)
    | some (name1, name2) =>
      let myType := GoType.mk tn tp
      let afterDef :=
        match alookup s.equals myType with
        | some _ => Res.ok s
        | none => parseTypeDefF cfg fuel myType s
      match afterDef with
      | Res.fatal m => Res.fatal m
      | Res.noFuel => Res.noFuel
      | Res.ok s1 =>
        match getReferenceUpdateImports cfg s1 tp ("Equal" ++ tn) with
        | Res.fatal m => Res.fatal m
        | Res.noFuel => Res.noFuel
        | Res.ok (funcName, s2) =>
          match findObjE cfg myType with
          | none => Res.fatal ("Type:" ++ tn ++ " was not found in package:" ++ tp)
          | some und =>
            match getArgs name1 name2 (isPointer und) isPointerReference with
            | (callName1, callName2, isDereferenced) =>
              let funcCall := "if !" ++ funcName ++ "(" ++ callName1 ++ ", " ++
                callName2 ++ ") \x7b\nreturn false\n\x7d\n"
              if isDereferenced then
                Res.ok ("if " ++ name1 ++ " != " ++ name2 ++ "\x7b\nif " ++ name1 ++
                  " == nil || " ++ name2 ++ " == nil \x7b\nreturn false\n\x7d\n" ++
                  funcCall ++ "\x7d\n", s2)
              else Res.ok (funcCall, s2)

/-- The source's `parseStruct` (equal.go:446-453): concatenate the
synthesis of every field, in declaration order, at field position. -/
def parseStructF (cfg : Config) : Nat → FieldList → GState → Res (String × GState)
  | 0, _, _ => Res.noFuel
  | _+1, FieldList.nil, s => Res.ok ("", s)
  | fuel+1, FieldList.cons fname ftyp rest, s =>
    match parseTypeF cfg fuel fname ftyp false false s with
    | Res.fatal m => Res.fatal m
    | Res.noFuel => Res.noFuel
    | Res.ok (str1, s1) =>
      match parseStructF cfg fuel rest s1 with
      | Res.fatal m => Res.fatal m
      | Res.noFuel => Res.noFuel
      | Res.ok (str2, s2) => Res.ok (str1 ++ str2, s2)

/-- The source's `parseSlice` (equal.go:457-478): foreign element types
reduce to the length check alone; byte slices become a `bytes.Equal` call
(no length check is emitted); otherwise a length check plus an index loop
with a freshly allocated `i<n>` identifier. -/
def parseSliceF (cfg : Config) :
    Nat → String → Typ → Bool → GState → Res (String × GState)
  | 0, _, _, _, _ => Res.noFuel
  | fuel+1, name, elem, isType, s =>
    match getNames name isType with
    | none => Res.fatal ("Wrong variable name:" ++ name)
    | some (name1, name2) =>
      match getEqualFunctionNameF cfg s elem with
      | Res.fatal m => Res.fatal m
      | Res.noFuel => Res.noFuel
      | Res.ok ((isCustom, customCall), s1) =>
        if isCustom && customCall = "" then
          Res.ok ("if len(" ++ name1 ++ ") != len(" ++ name2 ++
            ") \x7b\nreturn false\n\x7d\n", s1)
        else
          if isByteBasic elem then
            match getReferenceUpdateImports cfg s1 "bytes" "Equal" with
            | Res.fatal m => Res.fatal m
            | Res.noFuel => Res.noFuel
            | Res.ok (funcName, s2) =>
              Res.ok ("if !" ++ funcName ++ "(" ++ name1 ++ ", " ++ name2 ++
                ") \x7b\n return false\n\x7d\n", s2)
          else
            let index := findNextUsableIndex name "i"
            let indexName := "i" ++ natReprS index
            let referenceName := name ++ "[" ++ indexName ++ "]"
            match parseTypeF cfg fuel referenceName elem isType false s1 with
            | Res.fatal m => Res.fatal m
            | Res.noFuel => Res.noFuel
            | Res.ok (inner, s2) =>
              Res.ok ("if len(" ++ name1 ++ ") != len(" ++ name2 ++
                ") \x7b\nreturn false\n\x7d\n" ++ "for " ++ indexName ++
                " := range " ++ name1 ++ " \x7b\n" ++ inner ++ "\x7d\n", s2)

/-- The source's `parseArray` (equal.go:481-504): foreign element types
emit nothing (lengths are statically equal); a type-level array subject is
first wrapped in a dereference; basic element kinds compare the whole
array directly; otherwise an index loop as for slices but with no length
check. -/
def parseArrayF (cfg : Config) :
    Nat → String → Typ → Bool → Bool → GState → Res (String × GState)
  | 0, _, _, _, _, _ => Res.noFuel
  | fuel+1, name, elem, isType, isPointerReference, s =>
    match getEqualFunctionNameF cfg s elem with
    | Res.fatal m => Res.fatal m
    | Res.noFuel => Res.noFuel
    | Res.ok ((isCustom, customCall), s1) =>
      if isCustom && customCall = "" then Res.ok ("", s1)
      else
        let name0 := if isType && !isPointerReference then "(*" ++ name ++ ")" else name
        match getNames name0 isType with
        | none => Res.fatal ("Wrong variable name:" ++ name0)
        | some (name1, name2) =>
          if isBasicT elem then
            Res.ok ("if " ++ name1 ++ " != " ++ name2 ++ " \x7b\nreturn false\n\x7d\n", s1)
          else
            let index := findNextUsableIndex name0 "i"
            let indexName := "i" ++ natReprS index
            let referenceName := name0 ++ "[" ++ indexName ++ "]"
            match parseTypeF cfg fuel referenceName elem isType false s1 with
            | Res.fatal m => Res.fatal m
            | Res.noFuel => Res.noFuel
            | Res.ok (inner, s2) =>
              Res.ok ("for " ++ indexName ++ " := range " ++ name1 ++ " \x7b\n" ++
                inner ++ "\x7d\n", s2)

/-- The source's `parseMap` (equal.go:508-527): length check, then ranging
over the first map with a freshly allocated `key<n>` identifier; foreign
element types only check key presence on the other side; otherwise the
other side's value is bound via the captured-value identifiers produced by
`getNames` on the map-indexing path and the element comparison is
synthesized against it.  Only the element type is consulted (`mapType.Elem()`;
the key type never recursed into), so it is the parameter here. -/
def parseMapF (cfg : Config) :
    Nat → String → Typ → Bool → GState → Res (String × GState)
  | 0, _, _, _, _ => Res.noFuel
  | fuel+1, name, elem, isType, s =>
    match getNames name isType with
    | none => Res.fatal ("Wrong variable name:" ++ name)
    | some (name1, name2) =>
      let lenCheck := "if len(" ++ name1 ++ ") != len(" ++ name2 ++
        ") \x7b\nreturn false\n\x7d\n"
      let index := findNextUsableIndex name "key"
      let keyName := "key" ++ natReprS index
      let newName := name ++ "[" ++ keyName ++ "]"
      match getNames newName isType with
      | none => Res.fatal ("Wrong variable name:" ++ newName)
      | some (value1, value2) =>
        match getEqualFunctionNameF cfg s elem with
        | Res.fatal m => Res.fatal m
        | Res.noFuel => Res.noFuel
        | Res.ok ((isCustom, customCall), s1) =>
          if isCustom && customCall = "" then
            Res.ok (lenCheck ++ "for " ++ keyName ++ " := range " ++ name1 ++
              " \x7b\nif _, ok := " ++ name2 ++ "[" ++ keyName ++
              "]; !ok \x7b\nreturn false\n\x7d\n\x7d\n", s1)
          else
            match parseTypeF cfg fuel newName elem isType false s1 with
            | Res.fatal m => Res.fatal m
            | Res.noFuel => Res.noFuel
            | Res.ok (inner, s2) =>
              Res.ok (lenCheck ++ "for " ++ keyName ++ ", " ++ value1 ++
                " := range " ++ name1 ++ " \x7b\nif " ++ value2 ++ ", ok := " ++
                name2 ++ "[" ++ keyName ++ "]; !ok \x7b\nreturn false\n\x7d else \x7b\n" ++
                inner ++ "\x7d\n\x7d\n", s2)

/-- The source's `parsePointer` (equal.go:531-549): foreign referent types
reduce to an identity check with a nil guard (distinct non-nil pointers
fall through); a named referent defers entirely to `parseType` (which owns
nil safety); otherwise the dereferenced comparison inside an identity /
nil guard. -/
def parsePointerF (cfg : Config) :
    Nat → String → Typ → Bool → GState → Res (String × GState)
  | 0, _, _, _, _ => Res.noFuel
  | fuel+1, name, elem, isType, s =>
    match getNames name isType with
    | none => Res.fatal ("Wrong variable name:" ++ name)
    | some (name1, name2) =>
      match getEqualFunctionNameF cfg s elem with
      | Res.fatal m => Res.fatal m
      | Res.noFuel => Res.noFuel
      | Res.ok ((isCustom, customCall), s1) =>
        if isCustom && customCall = "" then
          Res.ok ("if " ++ name1 ++ " != " ++ name2 ++ " \x7b\nif " ++ name1 ++
            " == nil || " ++ name2 ++ " == nil \x7b\nreturn false\n\x7d\n\x7d\n", s1)
        else
          if isNamedT elem then
            parseTypeF cfg fuel name elem isType true s1
          else
            match parseTypeF cfg fuel ("(*" ++ name ++ ")") elem isType true s1 with
            | Res.fatal m => Res.fatal m
            | Res.noFuel => Res.noFuel
            | Res.ok (inner, s2) =>
              Res.ok ("if " ++ name1 ++ " != " ++ name2 ++ " \x7b\nif " ++ name1 ++
                " == nil || " ++ name2 ++ " == nil \x7b\nreturn false\n\x7d\n" ++
                inner ++ "\x7d\n", s2)

end

/-- The source's `Generator.parse` / `Generate` up to emission: generate
the root type's unit (transitively generating every referenced named
type).  Emission (`serialize`, file writing) is I/O outside the core. -/
def generate (cfg : Config) (fuel : Nat) (root : GoType) : Res GState :=
  parseTypeDefF cfg fuel root initState

mutual

/-- Call-depth bound of `parseTypeF` on a structural type, excluding
detours through not-yet-generated named types (those are accounted by
`remWeight`). -/
def needT : Typ → Nat
  | Typ.basicT _ => 1
  | Typ.namedT _ _ => 3
  | Typ.structT fs => 1 + needF fs
  | Typ.sliceT e => 2 + needT e
  | Typ.arrayT _ e => 2 + needT e
  | Typ.mapT _ e => 2 + needT e
  | Typ.pointerT e => 2 + needT e
  | Typ.interfaceT => 1
  | Typ.chanT => 1
  | Typ.signatureT => 1

/-- Call-depth bound of `parseStructF` on a field list. -/
def needF : FieldList → Nat
  | FieldList.nil => 1
  | FieldList.cons _ t rest => 1 + max (needT t) (needF rest)

end

/-- Fuel weight of the environment entries whose key is not in the given
list. -/
def remWeightK (env : List (GoType × Typ)) (keys : List GoType) : Nat :=
  ((env.filter (fun e => !(decide (e.1 ∈ keys)))).map
    (fun e => needT e.2 + 2)).sum

/-- Fuel weight of the named types of the environment not yet present in
the memo map: each such type can be entered at most once. -/
def remWeight (cfg : Config) (s : GState) : Nat :=
  remWeightK cfg.env (keysE s)

/-- Fuel sufficient for a whole generation session (proved below). -/
def fuelBound (cfg : Config) : Nat :=
  ((cfg.env.map (fun e => needT e.2 + 2)).sum) + 1

/-- The import-merging loop of `pkg.check` (equal.go:163-177): one entry
per import spec of the package's files, as a pair of local import name
and import path — the local name is `""` for an unnamed import.  The
accumulated `imports` map associates a path with its local name; finding
the same path under a different name is the
`log.Fatalf("package:%s imports package:%s under two names:%s %s")`
abort, embedded as `Except.error`. -/
def checkImportsAux : List (String × String) → List (String × String) →
    Except String (List (String × String))
  | [], acc => Except.ok acc
  | (importName, path) :: rest, acc =>
    match alookup acc path with
    | some oldImportName =>
      if oldImportName ≠ importName then
        Except.error ("imports package:" ++ path ++ " under two names:" ++
          oldImportName ++ " " ++ importName)
      else checkImportsAux rest acc
    | none => checkImportsAux rest ((path, importName) :: acc)

/-- The source's import consistency check over all import specs of one
package. -/
def checkImports (specs : List (String × String)) :
    Except String (List (String × String)) :=
  checkImportsAux specs []

/-- A Go reference value: `none` is `nil`, otherwise an address paired
with the pointed-to value.  Go pointer equality compares the addresses. -/
def Ptr (α : Type) : Type := Option (Nat × α)

/-- Go pointer comparison `p1 == p2` (address identity; `nil == nil`). -/
def sameRef {α : Type} : Ptr α → Ptr α → Bool
  | none, none => true
  | some (a, _), some (b, _) => a == b
  | _, _ => false

/-- Go `p == nil`. -/
def isNilP {α : Type} : Ptr α → Bool
  | none => true
  | some _ => false

/-- Denotation of the comparison the generator emits for a map position
with directly comparable values (the `parseMap` output
`if len(a) != len(b) { return false }` followed by
`for key, v1 := range a { if v2, ok := b[key]; !ok { return false } else
{ if v1 != v2 { return false } } }`): `false` means the enclosing routine
returns not-equal; reaching the end of the loop means the fragment passes.
Maps are integer-keyed, integer-valued association lists. -/
def mapFragEq (m1 m2 : List (Nat × Nat)) : Bool :=
  if m1.length ≠ m2.length then false
  else m1.all (fun kv =>
    match alookup m2 kv.1 with
    | none => false
    | some v2 => kv.2 == v2)

/-- Denotation of the fragment `parsePointer` emits for a
foreign-referent pointer position
(`if p1 != p2 { if p1 == nil || p2 == nil { return false } }`): the
fragment makes the routine return not-equal exactly when the pointers
differ and one side is nil; two distinct non-nil pointers fall through. -/
def foreignPtrFrag {α : Type} (p1 p2 : Ptr α) : Bool :=
  if !(sameRef p1 p2) then
    if isNilP p1 || isNilP p2 then false else true
  else true

/-- Denotation of a generated routine whose comparison body is empty:
only the value-like prologue
`if t1 == t2 { return true }; if t1 == nil || t2 == nil { return false }`
and the closing `return true` act. -/
def emptyBodyRoutine {α : Type} (t1 t2 : Ptr α) : Bool :=
  if sameRef t1 t2 then true
  else if isNilP t1 || isNilP t2 then false
  else true

/-- Value of the example record `Y { f int }`. -/
structure YVal where
  mk ::
  f : Int
deriving DecidableEq, Repr

/-- Value of the example record `X { y Y; m map[int]int }`. -/
structure XVal where
  mk ::
  y : YVal
  m : List (Nat × Nat)
deriving DecidableEq, Repr

/-- Denotation of the generated `EqualY(t1, t2 *Y)`: identity and nil
prologue, then `if t1.f != t2.f { return false }`, then `return true`. -/
def EqualYsem (t1 t2 : Ptr YVal) : Bool :=
  if sameRef t1 t2 then true
  else
    match t1, t2 with
    | some (_, y1), some (_, y2) => if y1.f ≠ y2.f then false else true
    | _, _ => false

/-- Address of the `y` field of a record reached through a pointer: field
addresses coincide exactly when the base pointers do. -/
def fieldY (p : Ptr XVal) : Ptr YVal :=
  p.map (fun q => (q.1, q.2.y))

/-- Denotation of the generated `EqualX(t1, t2 *X)`: identity and nil
prologue, `if !EqualY((&t1.y), (&t2.y)) { return false }`, then the map
fragment for `m`, then `return true`. -/
def EqualXsem (t1 t2 : Ptr XVal) : Bool :=
  if sameRef t1 t2 then true
  else
    match t1, t2 with
    | some (a1, x1), some (a2, x2) =>
      if !(EqualYsem (some (a1, x1.y)) (some (a2, x2.y))) then false
      else mapFragEq x1.m x2.m
    | _, _ => false

/-- Completion order of a finished session (`equalsOrder`); empty on a
fatal or out-of-fuel outcome. -/
def sessionOrder : Res GState → List GoType
  | Res.ok s => s.equalsOrder
  | _ => []

/-- The code texts of a finished session's units, in memo-map order. -/
def codesOf : Res GState → List String
  | Res.ok s => s.equals.map (fun p => p.2.codeStr)
  | _ => []

/-- The code text generated for a given named type. -/
def codeFor (r : Res GState) (t : GoType) : Option String :=
  match r with
  | Res.ok s => (alookup s.equals t).map (fun c => c.codeStr)
  | _ => none

/-- The example type `X` of the end-to-end claim. -/
def tyX : GoType := GoType.mk "X" "mypkg"

/-- The example type `Y` of the end-to-end claim. -/
def tyY : GoType := GoType.mk "Y" "mypkg"

/-- Catalog for the end-to-end example: `Y { f int }` and
`X { y Y; m map[int]int }` in one non-foreign package. -/
def cfgXY : Config := Config.mk
  [(tyX, Typ.structT (FieldList.cons "y" (Typ.namedT "Y" "mypkg")
      (FieldList.cons "m" (Typ.mapT (Typ.basicT BasicKind.intK) (Typ.basicT BasicKind.intK))
        FieldList.nil))),
   (tyY, Typ.structT (FieldList.cons "f" (Typ.basicT BasicKind.intK) FieldList.nil))]
  (fun _ => false) (fun p => p) (fun _ _ => "")

/-- A named type whose underlying type is a basic (Primitive) kind. -/
def tyT : GoType := GoType.mk "T" "mypkg"

/-- Catalog with `type T int`. -/
def cfgT : Config := Config.mk [(tyT, Typ.basicT BasicKind.intK)]
  (fun _ => false) (fun p => p) (fun _ _ => "")

/-- A named byte-slice type. -/
def tyB : GoType := GoType.mk "B" "mypkg"

/-- Catalog with `type B []byte`. -/
def cfgB : Config := Config.mk [(tyB, Typ.sliceT (Typ.basicT BasicKind.byteK))]
  (fun _ => false) (fun p => p) (fun _ _ => "")

/-- A named pointer type whose referent is a foreign (GOROOT) named type. -/
def tyP : GoType := GoType.mk "P" "mypkg"

/-- Catalog with `type P *time.Time` where package `time` is under
GOROOT. -/
def cfgP : Config := Config.mk [(tyP, Typ.pointerT (Typ.namedT "Time" "time"))]
  (fun p => p = "time") (fun p => p) (fun _ _ => "")

/-- C8: generating for `X { y Y; m map[int]int }` with `Y { f int }`
produces exactly the two units `[Y, X]` in completion order, with the
expected texts; the denotation of X's routine returns equal on two
distinct instances with equal `y.f` and the same map contents listed in a
different insertion order, and unequal after changing one map value. -/
theorem c8_end_to_end_example :
    sessionOrder (generate cfgXY 14 tyX) = [tyY, tyX] ∧
    codesOf (generate cfgXY 14 tyX) =
      ["func EqualY(t1, t2 *Y) bool \x7b\nif t1 == t2 \x7b\nreturn true\n\x7d\nif t1 == nil || t2 == nil \x7b\nreturn false\n\x7d\nif t1.f != t2.f \x7b\nreturn false\n\x7d\nreturn true\n\x7d",
       "func EqualX(t1, t2 *X) bool \x7b\nif t1 == t2 \x7b\nreturn true\n\x7d\nif t1 == nil || t2 == nil \x7b\nreturn false\n\x7d\nif !EqualY((&t1.y), (&t2.y)) \x7b\nreturn false\n\x7d\nif len(t1.m) != len(t2.m) \x7b\nreturn false\n\x7d\nfor key1, value11 := range t1.m \x7b\nif value12, ok := t2.m[key1]; !ok \x7b\nreturn false\n\x7d else \x7b\nif value11 != value12 \x7b\nreturn false\n\x7d\n\x7d\n\x7d\nreturn true\n\x7d"] ∧
    EqualXsem (some (1, XVal.mk (YVal.mk 5) [(1, 10), (2, 20)]))
      (some (2, XVal.mk (YVal.mk 5) [(2, 20), (1, 10)])) = true ∧
    EqualXsem (some (1, XVal.mk (YVal.mk 5) [(1, 10), (2, 20)]))
      (some (2, XVal.mk (YVal.mk 5) [(2, 20), (1, 11)])) = false := by
  refine ⟨by decide, by decide, by decide, by decide⟩

/-- C2 counterexample: for a named type `T` with Primitive (basic)
underlying kind, the source's `isPointer` classifies the underlying type
as pointer-like, so the generated routine takes its subjects directly
(`t1, t2 T`, not `*T`) and has no identity short-circuit and no nil
check — contradicting the claim that Primitive underliers get the
normalized reference form with the prologue. -/
theorem c2_primitive_counterexample :
    codeFor (generate cfgT 10 tyT) tyT =
      some "func EqualT(t1, t2 T) bool \x7b\nif t1 != t2 \x7b\nreturn false\n\x7d\nreturn true\n\x7d" ∧
    isPointer (Typ.basicT BasicKind.intK) = true ∧
    containsLB "func EqualT(t1, t2 T) bool \x7b\nif t1 != t2 \x7b\nreturn false\n\x7d\nreturn true\n\x7d".toList "*T".toList = false ∧
    containsLB "func EqualT(t1, t2 T) bool \x7b\nif t1 != t2 \x7b\nreturn false\n\x7d\nreturn true\n\x7d".toList "t1 == t2".toList = false := by
  refine ⟨by decide, by decide, by decide, by decide⟩

/-- C6 counterexample: the fragment generated for a pointer whose
referent is foreign-with-no-comparison is
`if p1 != p2 { if p1 == nil || p2 == nil { return false } }`; on two
DISTINCT NON-NIL references (addresses 1 and 2) it falls through, i.e.
the routine continues and returns equal — contradicting the claim that
two distinct non-absent references compare unequal. -/
theorem c6_foreign_pointer_counterexample :
    codeFor (generate cfgP 10 tyP) tyP =
      some "func EqualP(t1, t2 P) bool \x7b\nif t1 != t2 \x7b\nif t1 == nil || t2 == nil \x7b\nreturn false\n\x7d\n\x7d\nreturn true\n\x7d" ∧
    foreignPtrFrag (some (1, Unit.unit)) (some (2, Unit.unit)) = true := by
  refine ⟨by decide, by decide⟩

/-- C6 (amended): for an indirection position with a
foreign-with-no-comparison referent the generated comparison emits an
identity check with an either-absent guard only: identical references
compare equal, exactly one nil side compares unequal, and two distinct
non-absent references also compare EQUAL (the foreign referent is
skipped).  The fragment denotation returns not-equal exactly when the
references differ and at least one is nil. -/
theorem c6_foreign_pointer_amended :
    codesOf (generate cfgP 10 tyP) =
      ["func EqualP(t1, t2 P) bool \x7b\nif t1 != t2 \x7b\nif t1 == nil || t2 == nil \x7b\nreturn false\n\x7d\n\x7d\nreturn true\n\x7d"] ∧
    ∀ p1 p2 : Ptr Unit, foreignPtrFrag p1 p2 = false ↔
      (sameRef p1 p2 = false ∧ (isNilP p1 || isNilP p2) = true) := by
  refine ⟨by decide, ?_⟩
  intro p1 p2
  cases h1 : sameRef p1 p2 <;> cases h2 : (isNilP p1 || isNilP p2) <;>
    simp [foreignPtrFrag, h1, h2]

/-- C7 counterexample: for a byte slice the generated comparison is only
the call to the optimized byte-sequence equality — no length-equality
check is emitted at all (the built-in handles lengths internally),
contradicting the claim that a length check is emitted first for every
sequence position. -/
theorem c7_byte_slice_counterexample :
    codeFor (generate cfgB 10 tyB) tyB =
      some "func EqualB(t1, t2 B) bool \x7b\nif !bytes.Equal(t1, t2) \x7b\n return false\n\x7d\nreturn true\n\x7d" ∧
    containsLB "func EqualB(t1, t2 B) bool \x7b\nif !bytes.Equal(t1, t2) \x7b\n return false\n\x7d\nreturn true\n\x7d".toList "len(".toList = false := by
  refine ⟨by decide, by decide⟩

/-- Invariant of the import-merging loop: a successful merge extends the
accumulator consistently and agrees with every processed spec. -/
theorem checkImportsAux_ok_spec : ∀ (specs : List (String × String)) (acc M : List (String × String)),
    checkImportsAux specs acc = Except.ok M →
    (∀ p v, alookup acc p = some v → alookup M p = some v) ∧
    (∀ n p, (n, p) ∈ specs → alookup M p = some n) := by
  intro specs
  induction specs with
  | nil =>
    intro acc M h
    simp only [checkImportsAux] at h
    cases h
    exact ⟨fun p v hv => hv, fun n p hmem => absurd hmem (List.not_mem_nil _)⟩
  | cons hd tl ih =>
    intro acc M h
    obtain ⟨n0, p0⟩ := hd
    simp only [checkImportsAux] at h
    split at h
    · next old hacc =>
      split at h
      · cases h
      · next hne =>
        push_neg at hne
        obtain ⟨pres, sp⟩ := ih acc M h
        refine ⟨pres, fun n p hmem => ?_⟩
        rcases List.mem_cons.mp hmem with heq | hmem'
        · cases heq
          exact hne ▸ pres p0 old hacc
        · exact sp n p hmem'
    · next hacc =>
      obtain ⟨pres, sp⟩ := ih ((p0, n0) :: acc) M h
      have hacc' : ∀ p v, alookup acc p = some v → alookup ((p0, n0) :: acc) p = some v := by
        intro p v hv
        simp only [alookup]
        by_cases hpp : p0 = p
        · subst hpp
          rw [hacc] at hv
          cases hv
        · rw [if_neg hpp]
          exact hv
      refine ⟨fun p v hv => pres p v (hacc' p v hv), fun n p hmem => ?_⟩
      rcases List.mem_cons.mp hmem with heq | hmem'
      · cases heq
        refine pres p0 n0 ?_
        simp [alookup]
      · exact sp n p hmem'

/-- C9: one external module imported under two different local aliases
within the same home module makes `pkg.check`'s import-merging loop abort
fatally (so the session never reaches emission and no unit is written). -/
theorem c9_duplicate_alias_fatal : ∀ (specs : List (String × String)) (n1 n2 p : String),
    (n1, p) ∈ specs → (n2, p) ∈ specs → n1 ≠ n2 →
    ∃ msg, checkImports specs = Except.error msg := by
  intro specs n1 n2 p h1 h2 hne
  cases h : checkImports specs with
  | ok M =>
    exfalso
    obtain ⟨_, sp⟩ := checkImportsAux_ok_spec specs [] M h
    have e1 := sp n1 p h1
    have e2 := sp n2 p h2
    rw [e1] at e2
    exact hne (Option.some.inj e2)
  | error msg => exact ⟨msg, rfl⟩

/-- Witness for C9: `import foo "github.com/x"` and
`import bar "github.com/x"` in one package abort the session. -/
theorem c9_duplicate_alias_fatal_witness :
    ∃ msg, checkImports [("foo", "github.com/x"), ("bar", "github.com/x")] = Except.error msg :=
  c9_duplicate_alias_fatal _ "foo" "bar" "github.com/x" (by decide) (by decide) (by decide)

/-- Association lookup misses exactly the keys that are absent. -/
theorem alookup_eq_none_iff {α β : Type} [DecidableEq α] :
    ∀ (m : List (α × β)) (k : α), alookup m k = none ↔ k ∉ m.map Prod.fst := by
  intro m
  induction m with
  | nil => intro k; simp [alookup]
  | cons hd tl ih =>
    intro k
    obtain ⟨a, b⟩ := hd
    simp only [alookup, List.map_cons, List.mem_cons]
    by_cases hak : a = k
    · subst hak
      simp
    · rw [if_neg hak]
      rw [ih k]
      constructor
      · intro hnone hor
        rcases hor with heq | hmem
        · exact hak heq.symm
        · exact hnone hmem
      · intro hni
        intro hmem
        exact hni (Or.inr hmem)

/-- Membership and lookup agree on association lists with distinct keys. -/
theorem alookup_mem_iff {α β : Type} [DecidableEq α] :
    ∀ (m : List (α × β)), (m.map Prod.fst).Nodup →
      ∀ (k : α) (v : β), ((k, v) ∈ m ↔ alookup m k = some v) := by
  intro m
  induction m with
  | nil => intro _ k v; simp [alookup]
  | cons hd tl ih =>
    intro hnd k v
    obtain ⟨a, b⟩ := hd
    simp only [List.map_cons, List.nodup_cons] at hnd
    obtain ⟨hna, hnd'⟩ := hnd
    simp only [alookup, List.mem_cons]
    by_cases hak : a = k
    · subst hak
      rw [if_pos rfl]
      constructor
      · intro hor
        rcases hor with heq | hmem
        · cases heq; rfl
        · exact absurd (List.mem_map.mpr ⟨(a, v), hmem, rfl⟩) hna
      · intro hsome
        exact Or.inl (by cases hsome; rfl)
    · rw [if_neg hak]
      rw [← ih hnd' k v]
      constructor
      · intro hor
        rcases hor with heq | hmem
        · cases heq; exact absurd rfl hak
        · exact hmem
      · exact Or.inr

/-- Two key lists with the same length, related by inclusion, have the
same members when both have distinct keys. -/
theorem keys_subset_length_eq_mem {α : Type} [DecidableEq α]
    (k1 k2 : List α) (hn1 : k1.Nodup) (hn2 : k2.Nodup)
    (hsub : ∀ x ∈ k1, x ∈ k2) (hlen : k1.length = k2.length) :
    ∀ x, x ∈ k1 ↔ x ∈ k2 := by
  have hfin : k1.toFinset ⊆ k2.toFinset := by
    intro x hx
    exact List.mem_toFinset.mpr (hsub x (List.mem_toFinset.mp hx))
  have hcard : k2.toFinset.card ≤ k1.toFinset.card := by
    rw [List.toFinset_card_of_nodup hn1, List.toFinset_card_of_nodup hn2]
    exact Nat.le_of_eq hlen.symm
  have heq := Finset.eq_of_subset_of_card_le hfin hcard
  intro x
  constructor
  · intro hx
    exact List.mem_toFinset.mp (heq ▸ List.mem_toFinset.mpr hx)
  · intro hx
    exact List.mem_toFinset.mp (heq.symm ▸ List.mem_toFinset.mpr hx)

/-- Semantic core of the map fragment: on maps with distinct keys it
passes exactly when the lengths agree and every key has the same
associated value on both sides. -/
theorem mapFragEq_iff (m1 m2 : List (Nat × Nat))
    (hn1 : (m1.map Prod.fst).Nodup) (hn2 : (m2.map Prod.fst).Nodup) :
    mapFragEq m1 m2 = true ↔
      (m1.length = m2.length ∧ ∀ k, alookup m1 k = alookup m2 k) := by
  constructor
  · intro h
    unfold mapFragEq at h
    by_cases hlen : m1.length ≠ m2.length
    · rw [if_pos hlen] at h
      cases h
    · rw [if_neg hlen] at h
      push_neg at hlen
      have hall := List.all_eq_true.mp h
      have hsub : ∀ x ∈ m1.map Prod.fst, x ∈ m2.map Prod.fst := by
        intro x hx
        obtain ⟨⟨k, v⟩, hkv, hfst⟩ := List.mem_map.mp hx
        cases hfst
        have hp := hall (k, v) hkv
        cases hw : alookup m2 k with
        | none => rw [hw] at hp; cases hp
        | some v2 =>
          exact List.mem_map.mpr ⟨(k, v2), (alookup_mem_iff m2 hn2 k v2).mpr hw, rfl⟩
      have hmem := keys_subset_length_eq_mem (m1.map Prod.fst) (m2.map Prod.fst)
        hn1 hn2 hsub (by rw [List.length_map, List.length_map]; exact hlen)
      refine ⟨hlen, fun k => ?_⟩
      cases h1 : alookup m1 k with
      | some v =>
        have hkv := (alookup_mem_iff m1 hn1 k v).mpr h1
        have hp := hall (k, v) hkv
        cases hw : alookup m2 k with
        | none => rw [hw] at hp; cases hp
        | some v2 =>
          rw [hw] at hp
          have : v = v2 := by
            have := of_decide_eq_true hp
            exact this
          rw [this]
      | none =>
        cases hw : alookup m2 k with
        | none => rfl
        | some w =>
          exfalso
          have hk2 : k ∈ m2.map Prod.fst :=
            List.mem_map.mpr ⟨(k, w), (alookup_mem_iff m2 hn2 k w).mpr hw, rfl⟩
          have hk1 : k ∈ m1.map Prod.fst := (hmem k).mpr hk2
          exact (alookup_eq_none_iff m1 k).mp h1 hk1
  · intro ⟨hlen, hkeys⟩
    unfold mapFragEq
    rw [if_neg (by rw [hlen]; exact fun hc => hc rfl)]
    refine List.all_eq_true.mpr (fun kv hkv => ?_)
    obtain ⟨k, v⟩ := kv
    have h1 : alookup m1 k = some v := (alookup_mem_iff m1 hn1 k v).mp hkv
    have h2 : alookup m2 k = some v := by rw [← hkeys k]; exact h1
    rw [h2]
    exact decide_eq_true rfl

/-- C3: the comparison generated for a map position is the length check
followed by the one-sided presence-and-value loop (pinned on a concrete
`map[int]int` field); its denotation accepts exactly equal-length maps
that agree on every key — hence equal contents compare equal regardless
of insertion order (permutation conjunct), while a differing value for a
shared key or a key present on one side only compares unequal. -/
theorem c3_map_comparison :
    parseMapF cfgXY 5 "m" (Typ.basicT BasicKind.intK) false initState =
      Res.ok ("if len(t1.m) != len(t2.m) \x7b\nreturn false\n\x7d\nfor key1, value11 := range t1.m \x7b\nif value12, ok := t2.m[key1]; !ok \x7b\nreturn false\n\x7d else \x7b\nif value11 != value12 \x7b\nreturn false\n\x7d\n\x7d\n\x7d\n", initState) ∧
    (∀ m1 m2 : List (Nat × Nat), (m1.map Prod.fst).Nodup → (m2.map Prod.fst).Nodup →
      (mapFragEq m1 m2 = true ↔
        (m1.length = m2.length ∧ ∀ k, alookup m1 k = alookup m2 k))) ∧
    (∀ m1 m2 : List (Nat × Nat), (m1.map Prod.fst).Nodup → m1.Perm m2 →
      mapFragEq m1 m2 = true) := by
  refine ⟨by decide, mapFragEq_iff, ?_⟩
  intro m1 m2 hn1 hperm
  have hn2 : (m2.map Prod.fst).Nodup := (hperm.map Prod.fst).nodup_iff.mp hn1
  refine (mapFragEq_iff m1 m2 hn1 hn2).mpr ⟨hperm.length_eq, fun k => ?_⟩
  cases h1 : alookup m1 k with
  | some v =>
    have hkv := (alookup_mem_iff m1 hn1 k v).mpr h1
    exact ((alookup_mem_iff m2 hn2 k v).mp (hperm.mem_iff.mp hkv)).symm
  | none =>
    cases h2 : alookup m2 k with
    | none => rfl
    | some w =>
      exfalso
      have hkv := (alookup_mem_iff m2 hn2 k w).mpr h2
      have : (k, w) ∈ m1 := hperm.mem_iff.mpr hkv
      rw [(alookup_mem_iff m1 hn1 k w).mp this] at h1
      cases h1

/-- Witness for C3: two concrete maps with the same three entries in
different insertion order compare equal under the map fragment. -/
theorem c3_map_comparison_witness :
    mapFragEq [(1, 10), (2, 20), (7, 70)] [(7, 70), (1, 10), (2, 20)] = true :=
  c3_map_comparison.2.2 [(1, 10), (2, 20), (7, 70)] [(7, 70), (1, 10), (2, 20)]
    (by decide) (by decide)

/-- The generator step relation the parse functions respect: the memo map
only grows, the completion order is extended by fresh (not previously
registered) types exactly once each, every newly registered type is
appended, key distinctness is preserved and the stack is restored. -/
def StepOK (s s' : GState) : Prop :=
  (∀ t, t ∈ keysE s → t ∈ keysE s') ∧
  (∃ l, s'.equalsOrder = s.equalsOrder ++ l ∧ l.Nodup ∧
    (∀ u ∈ l, u ∈ keysE s' ∧ u ∉ keysE s) ∧
    (∀ u, u ∈ keysE s' → u ∈ keysE s ∨ u ∈ l)) ∧
  ((keysE s).Nodup → (keysE s').Nodup) ∧
  s'.usedTypes = s.usedTypes

/-- States with identical memo keys, order and stack. -/
def SameShape (s s' : GState) : Prop :=
  keysE s' = keysE s ∧ s'.equalsOrder = s.equalsOrder ∧ s'.usedTypes = s.usedTypes

theorem StepOK_refl (s : GState) : StepOK s s := by
  refine ⟨fun t h => h, ⟨[], by simp, List.nodup_nil, by simp, fun u h => Or.inl h⟩,
    fun h => h, rfl⟩

theorem SameShape.stepOK {s s' : GState} (h : SameShape s s') : StepOK s s' := by
  obtain ⟨hk, ho, hu⟩ := h
  exact ⟨fun t ht => hk ▸ ht, ⟨[], by simp [ho], List.nodup_nil, by simp,
    fun u h => Or.inl (hk ▸ h)⟩, fun hn => hk ▸ hn, hu⟩

theorem StepOK_trans {s1 s2 s3 : GState} (h1 : StepOK s1 s2) (h2 : StepOK s2 s3) :
    StepOK s1 s3 := by
  obtain ⟨m1, ⟨l1, ho1, hn1, hl1, hc1⟩, hd1, hu1⟩ := h1
  obtain ⟨m2, ⟨l2, ho2, hn2, hl2, hc2⟩, hd2, hu2⟩ := h2
  refine ⟨fun t ht => m2 t (m1 t ht), ⟨l1 ++ l2, ?_, ?_, ?_, ?_⟩,
    fun hn => hd2 (hd1 hn), hu2.trans hu1⟩
  · rw [ho2, ho1, List.append_assoc]
  · rw [List.nodup_append]
    refine ⟨hn1, hn2, fun u hu1' hu2' => ?_⟩
    exact (hl2 u hu2').2 ((hl1 u hu1').1)
  · intro u hu
    rcases List.mem_append.mp hu with h | h
    · exact ⟨m2 u ((hl1 u h).1), fun hc => (hl1 u h).2 hc⟩
    · exact ⟨(hl2 u h).1, fun hc => (hl2 u h).2 (m1 u hc)⟩
  · intro u hu
    rcases hc2 u hu with h | h
    · rcases hc1 u h with h' | h'
      · exact Or.inl h'
      · exact Or.inr (List.mem_append.mpr (Or.inl h'))
    · exact Or.inr (List.mem_append.mpr (Or.inr h))

theorem keysE_updateEquals (s : GState) (t : GoType) (f : Code → Code) :
    keysE (updateEquals s t f) = keysE s := by
  simp only [keysE, updateEquals, List.map_map]
  refine List.map_congr_left (fun p _ => ?_)
  by_cases h : p.1 = t <;> simp [h]

theorem alookup_cons {β : Type} (a : GoType) (c : β) (tl : List (GoType × β)) (k : GoType) :
    alookup ((a, c) :: tl) k = if a = k then some c else alookup tl k := rfl

theorem alookup_updateEquals_self (s : GState) (t : GoType) (f : Code → Code) :
    alookup (updateEquals s t f).equals t = (alookup s.equals t).map f := by
  simp only [updateEquals]
  induction s.equals with
  | nil => simp [alookup]
  | cons hd tl ih =>
    obtain ⟨a, c⟩ := hd
    by_cases hat : a = t
    · subst hat
      have h1 : (if (a, c).1 = a then ((a, c).1, f (a, c).2) else (a, c)) = (a, f c) := by
        simp
      rw [List.map_cons, h1, alookup_cons, alookup_cons, if_pos rfl, if_pos rfl]
      rfl
    · have h1 : (if (a, c).1 = t then ((a, c).1, f (a, c).2) else (a, c)) = (a, c) := by
        simp [hat]
      rw [List.map_cons, h1, alookup_cons, alookup_cons, if_neg hat, if_neg hat]
      exact ih

theorem mem_keysE_alookup (s : GState) (t : GoType) :
    t ∈ keysE s ↔ ∃ c, alookup s.equals t = some c := by
  constructor
  · intro h
    cases hc : alookup s.equals t with
    | none => exact absurd h ((alookup_eq_none_iff s.equals t).mp hc)
    | some c => exact ⟨c, rfl⟩
  · intro ⟨c, hc⟩
    by_contra hmem
    rw [(alookup_eq_none_iff s.equals t).mpr hmem] at hc
    cases hc

theorem remWeightK_mono (env : List (GoType × Typ)) (k1 k2 : List GoType)
    (hsub : ∀ x ∈ k1, x ∈ k2) : remWeightK env k2 ≤ remWeightK env k1 := by
  induction env with
  | nil => exact Nat.le_refl _
  | cons e rest ih =>
    simp only [remWeightK, List.filter_cons] at *
    by_cases h2 : e.1 ∈ k2
    · have h2' : (!(decide (e.1 ∈ k2))) = false := by simp [h2]
      rw [h2']
      by_cases h1 : e.1 ∈ k1
      · have h1' : (!(decide (e.1 ∈ k1))) = false := by simp [h1]
        rw [h1']
        exact ih
      · have h1' : (!(decide (e.1 ∈ k1))) = true := by simp [h1]
        rw [h1']
        simp only [List.map_cons, List.sum_cons]
        exact Nat.le_trans ih (Nat.le_add_left _ _)
    · have h1 : e.1 ∉ k1 := fun hc => h2 (hsub _ hc)
      have h2' : (!(decide (e.1 ∈ k2))) = true := by simp [h2]
      have h1' : (!(decide (e.1 ∈ k1))) = true := by simp [h1]
      rw [h2', h1']
      simp only [List.map_cons, List.sum_cons]
      exact Nat.add_le_add_left ih _

theorem remWeightK_insert (env : List (GoType × Typ)) (t : GoType) (τ : Typ)
    (keys : List GoType) (hfind : alookup env t = some τ) (hmem : t ∉ keys) :
    remWeightK env (t :: keys) + (needT τ + 2) ≤ remWeightK env keys := by
  induction env with
  | nil => cases hfind
  | cons e rest ih =>
    obtain ⟨a, sg⟩ := e
    simp only [alookup] at hfind
    by_cases hat : a = t
    · subst hat
      rw [if_pos rfl] at hfind
      injection hfind with hst
      subst hst
      have h1 : (!(decide ((a, sg).1 ∈ a :: keys))) = false := by simp
      have h2 : (!(decide ((a, sg).1 ∈ keys))) = true := by simp [hmem]
      simp only [remWeightK, List.filter_cons, h1, h2, List.map_cons, List.sum_cons]
      rw [if_neg (by simp), if_pos (by simp [hmem])]
      simp only [List.map_cons, List.sum_cons]
      have hmono := remWeightK_mono rest keys (a :: keys)
        (fun x hx => List.mem_cons_of_mem a hx)
      simp only [remWeightK] at hmono
      omega
    · rw [if_neg hat] at hfind
      by_cases hk : a ∈ keys
      · have h1 : (!(decide ((a, sg).1 ∈ t :: keys))) = false := by
          simp [List.mem_cons, hk]
        have h2 : (!(decide ((a, sg).1 ∈ keys))) = false := by simp [hk]
        simp only [remWeightK, List.filter_cons, h1, h2]
        rw [if_neg (by simp), if_neg (by simp)]
        have := ih hfind
        simp only [remWeightK] at this
        exact this
      · have h1 : (!(decide ((a, sg).1 ∈ t :: keys))) = true := by
          simp only [List.mem_cons, Bool.not_eq_true', decide_eq_false_iff_not]
          rintro (h | h)
          · exact hat h
          · exact hk h
        have h2 : (!(decide ((a, sg).1 ∈ keys))) = true := by simp [hk]
        simp only [remWeightK, List.filter_cons, h1, h2]
        rw [if_pos (by simp), if_pos (by simp)]
        simp only [List.map_cons, List.sum_cons]
        have := ih hfind
        simp only [remWeightK] at this
        omega

theorem SameShape_refl (s : GState) : SameShape s s := ⟨rfl, rfl, rfl⟩

theorem SameShape_updateEquals (s : GState) (t : GoType) (f : Code → Code) :
    SameShape s (updateEquals s t f) := ⟨keysE_updateEquals s t f, rfl, rfl⟩

/-- `getReferenceUpdateImports` only touches the current unit's import
set: memo keys, order and stack are unchanged. -/
theorem getRefUpdate_shape (cfg : Config) (s : GState) (p n : String) (r : String)
    (s1 : GState) (h : getReferenceUpdateImports cfg s p n = Res.ok (r, s1)) :
    SameShape s s1 := by
  simp only [getReferenceUpdateImports] at h
  split at h
  · exact Res.noConfusion h
  · repeat' split at h
    all_goals
      injection h with h'
      injection h' with h1 h2
      subst h2
      first
      | exact SameShape_refl s
      | exact SameShape_updateEquals s _ _

/-- `getReferenceUpdateImports` never runs out of fuel. -/
theorem getRefUpdate_not_noFuel (cfg : Config) (s : GState) (p n : String) :
    getReferenceUpdateImports cfg s p n ≠ Res.noFuel := by
  simp only [getReferenceUpdateImports]
  split
  · exact fun h => Res.noConfusion h
  · repeat' split
    all_goals exact fun h => Res.noConfusion h

/-- `getEqualFunctionName` only touches the current unit's import set. -/
theorem getEqual_shape (cfg : Config) (s : GState) (typ : Typ) (b : Bool × String)
    (s1 : GState) (h : getEqualFunctionNameF cfg s typ = Res.ok (b, s1)) :
    SameShape s s1 := by
  cases typ <;> simp only [getEqualFunctionNameF] at h
  case namedT nm pp =>
    split at h
    all_goals
      injection h with h'
      injection h' with h1 h2
      subst h2
      exact SameShape_refl s
  case interfaceT =>
    split at h
    · next r s2 href =>
      injection h with h'
      injection h' with h1 h2
      subst h2
      exact getRefUpdate_shape cfg s "reflect" "DeepEqual" r _ href
    · exact Res.noConfusion h
    · exact Res.noConfusion h
  all_goals
    injection h with h'
    injection h' with h1 h2
    subst h2
    exact SameShape_refl s

/-- `getEqualFunctionName` never runs out of fuel. -/
theorem getEqual_not_noFuel (cfg : Config) (s : GState) (typ : Typ) :
    getEqualFunctionNameF cfg s typ ≠ Res.noFuel := by
  cases typ <;> simp only [getEqualFunctionNameF]
  case namedT nm pp =>
    split <;> exact fun h => Res.noConfusion h
  case interfaceT =>
    split
    · exact fun h => Res.noConfusion h
    · exact fun h => Res.noConfusion h
    · next hnf =>
      exact fun _ => getRefUpdate_not_noFuel cfg s "reflect" "DeepEqual" hnf
  all_goals exact fun h => Res.noConfusion h

/-- Gluing step for `parseTypeDef`: from the body's step relation on the
state with the fresh unit registered and the type pushed, conclude the
step relation of the whole definition (order extended by the type, stack
popped). -/
theorem stepOK_typedef_glue (s s2 : GState) (t : GoType) (c0 : Code) (f : Code → Code)
    (hmem : t ∉ keysE s)
    (h12 : StepOK (GState.mk ((t, c0) :: s.equals) s.equalsOrder (s.usedTypes ++ [t])) s2) :
    StepOK s (GState.mk (updateEquals s2 t f).equals
      ((updateEquals s2 t f).equalsOrder ++ [t])
      ((updateEquals s2 t f).usedTypes.dropLast)) := by
  obtain ⟨m1, ⟨lb, hob, hnb, hlb, hcb⟩, hd1, hu1⟩ := h12
  have hk1 : keysE (GState.mk ((t, c0) :: s.equals) s.equalsOrder (s.usedTypes ++ [t])) =
      t :: keysE s := rfl
  rw [hk1] at m1 hlb hcb hd1
  refine ⟨?_, ⟨lb ++ [t], ?_, ?_, ?_, ?_⟩, ?_, ?_⟩
  · intro u hu
    show u ∈ keysE (updateEquals s2 t f)
    rw [keysE_updateEquals]
    exact m1 u (List.mem_cons_of_mem t hu)
  · show s2.equalsOrder ++ [t] = s.equalsOrder ++ (lb ++ [t])
    rw [hob]
    show s.equalsOrder ++ lb ++ [t] = _
    rw [List.append_assoc]
  · rw [List.nodup_append]
    refine ⟨hnb, List.nodup_singleton t, ?_⟩
    intro u hul hut
    rw [List.mem_singleton] at hut
    subst hut
    exact (hlb u hul).2 (List.mem_cons_self u (keysE s))
  · intro u hu
    rcases List.mem_append.mp hu with h | h
    · refine ⟨?_, fun hc => (hlb u h).2 (List.mem_cons_of_mem t hc)⟩
      show u ∈ keysE (updateEquals s2 t f)
      rw [keysE_updateEquals]
      exact (hlb u h).1
    · rw [List.mem_singleton] at h
      subst h
      refine ⟨?_, hmem⟩
      show u ∈ keysE (updateEquals s2 u f)
      rw [keysE_updateEquals]
      exact m1 u (List.mem_cons_self u (keysE s))
  · intro u hu
    have hu2 : u ∈ keysE s2 := by
      have hrw : keysE (GState.mk (updateEquals s2 t f).equals
          ((updateEquals s2 t f).equalsOrder ++ [t])
          ((updateEquals s2 t f).usedTypes.dropLast)) = keysE s2 := keysE_updateEquals s2 t f
      rw [hrw] at hu
      exact hu
    rcases hcb u hu2 with h | h
    · rcases List.mem_cons.mp h with he | hm
      · exact Or.inr (List.mem_append.mpr (Or.inr (by rw [List.mem_singleton]; exact he)))
      · exact Or.inl hm
    · exact Or.inr (List.mem_append.mpr (Or.inl h))
  · intro hn
    have h2 := hd1 (List.nodup_cons.mpr ⟨hmem, hn⟩)
    show (keysE (updateEquals s2 t f)).Nodup
    rw [keysE_updateEquals]
    exact h2
  · show s2.usedTypes.dropLast = s.usedTypes
    rw [hu1]
    show (s.usedTypes ++ [t]).dropLast = s.usedTypes
    rw [List.dropLast_concat]

theorem stepOK_okE {s s0 s' : GState} {r0 r : String} (h : Res.ok (r0, s0) = Res.ok (r, s'))
    (hs : StepOK s s0) : StepOK s s' := by
  injection h with h'
  injection h' with h1 h2
  exact h2 ▸ hs

/-- Every parse function respects the step relation: the memo map grows
monotonically, each type is appended to the completion order at most once
(and only if it was not yet registered), key distinctness is preserved
and the `usedTypes` stack is restored on return. -/
theorem stepOK_all : ∀ fuel : Nat,
    (∀ cfg t s s', t ∉ keysE s → parseTypeDefF cfg fuel t s = Res.ok s' → StepOK s s') ∧
    (∀ cfg name typ it ipr s r s',
      parseTypeF cfg fuel name typ it ipr s = Res.ok (r, s') → StepOK s s') ∧
    (∀ cfg fs s r s', parseStructF cfg fuel fs s = Res.ok (r, s') → StepOK s s') ∧
    (∀ cfg name tn tp it ipr s r s',
      parseNamedF cfg fuel name tn tp it ipr s = Res.ok (r, s') → StepOK s s') ∧
    (∀ cfg name e it s r s', parseSliceF cfg fuel name e it s = Res.ok (r, s') → StepOK s s') ∧
    (∀ cfg name e it ipr s r s',
      parseArrayF cfg fuel name e it ipr s = Res.ok (r, s') → StepOK s s') ∧
    (∀ cfg name e it s r s', parseMapF cfg fuel name e it s = Res.ok (r, s') → StepOK s s') ∧
    (∀ cfg name e it s r s',
      parsePointerF cfg fuel name e it s = Res.ok (r, s') → StepOK s s') := by
  intro fuel
  induction fuel with
  | zero =>
    refine ⟨?_, ?_, ?_, ?_, ?_, ?_, ?_, ?_⟩
    · intro cfg t s s' _ h
      exact Res.noConfusion h
    · intro cfg name typ it ipr s r s' h
      exact Res.noConfusion h
    · intro cfg fs s r s' h
      exact Res.noConfusion h
    · intro cfg name tn tp it ipr s r s' h
      exact Res.noConfusion h
    · intro cfg name e it s r s' h
      exact Res.noConfusion h
    · intro cfg name e it ipr s r s' h
      exact Res.noConfusion h
    · intro cfg name e it s r s' h
      exact Res.noConfusion h
    · intro cfg name e it s r s' h
      exact Res.noConfusion h
  | succ fuel ih =>
    obtain ⟨ihDef, ihTyp, ihStruct, ihNamed, ihSlice, ihArray, ihMap, ihPointer⟩ := ih
    refine ⟨?_, ?_, ?_, ?_, ?_, ?_, ?_, ?_⟩
    -- parseTypeDefF
    · intro cfg t s s' hmem h
      simp only [parseTypeDefF] at h
      split at h
      · exact Res.noConfusion h
      · split at h
        · next body s2 hbody =>
          injection h with h'
          subst h'
          exact stepOK_typedef_glue s s2 t _ _ hmem
            (ihTyp cfg t.name _ true false _ body s2 hbody)
        · exact Res.noConfusion h
        · exact Res.noConfusion h
    -- parseTypeF
    · intro cfg name typ it ipr s r s' h
      simp only [parseTypeF] at h
      split at h
      · exact Res.noConfusion h
      · exact Res.noConfusion h
      · next isCustom customCall s1 hget =>
        have hshape : StepOK s s1 := (getEqual_shape cfg s typ _ s1 hget).stepOK
        split at h
        · split at h
          · exact stepOK_okE h hshape
          · split at h
            · exact Res.noConfusion h
            · exact stepOK_okE h hshape
        · split at h
          · next n p =>
            exact StepOK_trans hshape (ihNamed cfg name n p it ipr s1 r s' h)
          · next fs =>
            exact StepOK_trans hshape (ihStruct cfg fs s1 r s' h)
          · next k =>
            split at h
            · exact Res.noConfusion h
            · exact stepOK_okE h hshape
          · next e =>
            exact StepOK_trans hshape (ihSlice cfg name e it s1 r s' h)
          · next len e =>
            exact StepOK_trans hshape (ihArray cfg name e it ipr s1 r s' h)
          · next kt e =>
            exact StepOK_trans hshape (ihMap cfg name e it s1 r s' h)
          · next e =>
            exact StepOK_trans hshape (ihPointer cfg name e it s1 r s' h)
          · exact stepOK_okE h hshape
    -- parseStructF
    · intro cfg fs s r s' h
      cases fs with
      | nil =>
        simp only [parseStructF] at h
        exact stepOK_okE h (StepOK_refl s)
      | cons fname ftyp rest =>
        simp only [parseStructF] at h
        split at h
        · exact Res.noConfusion h
        · exact Res.noConfusion h
        · next str1 s1 h1 =>
          split at h
          · exact Res.noConfusion h
          · exact Res.noConfusion h
          · next str2 s2 h2 =>
            exact stepOK_okE h (StepOK_trans
              (ihTyp cfg fname ftyp false false s str1 s1 h1)
              (ihStruct cfg rest s1 str2 s2 h2))
    -- parseNamedF
    · intro cfg name tn tp it ipr s r s' h
      simp only [parseNamedF] at h
      split at h
      · exact Res.noConfusion h
      · next name1 name2 hnames =>
        split at h
        · exact Res.noConfusion h
        · exact Res.noConfusion h
        · next s1 hdef =>
          have hs1 : StepOK s s1 := by
            revert hdef
            split
            · intro hdef
              injection hdef with h'
              exact h' ▸ StepOK_refl s
            · next hlook =>
              intro hdef
              refine ihDef cfg (GoType.mk tn tp) s s1 ?_ hdef
              exact (alookup_eq_none_iff s.equals (GoType.mk tn tp)).mp hlook
          split at h
          · exact Res.noConfusion h
          · exact Res.noConfusion h
          · next funcName s2 href =>
            have hs2 : StepOK s s2 :=
              StepOK_trans hs1 (getRefUpdate_shape cfg s1 tp _ funcName s2 href).stepOK
            split at h
            · exact Res.noConfusion h
            · next und hobj =>
              split at h
              · exact stepOK_okE h hs2
              · exact stepOK_okE h hs2
    -- parseSliceF
    · intro cfg name e it s r s' h
      simp only [parseSliceF] at h
      split at h
      · exact Res.noConfusion h
      · next name1 name2 hnames =>
        split at h
        · exact Res.noConfusion h
        · exact Res.noConfusion h
        · next isCustom customCall s1 hget =>
          have hshape : StepOK s s1 := (getEqual_shape cfg s e _ s1 hget).stepOK
          split at h
          · exact stepOK_okE h hshape
          · split at h
            · split at h
              · exact Res.noConfusion h
              · exact Res.noConfusion h
              · next fn s2 href =>
                exact stepOK_okE h (StepOK_trans hshape
                  (getRefUpdate_shape cfg s1 "bytes" "Equal" fn s2 href).stepOK)
            · split at h
              · exact Res.noConfusion h
              · exact Res.noConfusion h
              · next inner s2 hrec =>
                exact stepOK_okE h (StepOK_trans hshape
                  (ihTyp cfg _ e it false s1 inner s2 hrec))
    -- parseArrayF
    · intro cfg name e it ipr s r s' h
      simp only [parseArrayF] at h
      split at h
      · exact Res.noConfusion h
      · exact Res.noConfusion h
      · next isCustom customCall s1 hget =>
        have hshape : StepOK s s1 := (getEqual_shape cfg s e _ s1 hget).stepOK
        split at h
        · exact stepOK_okE h hshape
        · split at h
          · exact Res.noConfusion h
          · next name1 name2 hnames =>
            split at h
            · exact stepOK_okE h hshape
            · split at h
              · exact Res.noConfusion h
              · exact Res.noConfusion h
              · next inner s2 hrec =>
                exact stepOK_okE h (StepOK_trans hshape
                  (ihTyp cfg _ e it false s1 inner s2 hrec))
    -- parseMapF
    · intro cfg name e it s r s' h
      simp only [parseMapF] at h
      split at h
      · exact Res.noConfusion h
      · next name1 name2 hnames =>
        split at h
        · exact Res.noConfusion h
        · next value1 value2 hvals =>
          split at h
          · exact Res.noConfusion h
          · exact Res.noConfusion h
          · next isCustom customCall s1 hget =>
            have hshape : StepOK s s1 := (getEqual_shape cfg s e _ s1 hget).stepOK
            split at h
            · exact stepOK_okE h hshape
            · split at h
              · exact Res.noConfusion h
              · exact Res.noConfusion h
              · next inner s2 hrec =>
                exact stepOK_okE h (StepOK_trans hshape
                  (ihTyp cfg _ e it false s1 inner s2 hrec))
    -- parsePointerF
    · intro cfg name e it s r s' h
      simp only [parsePointerF] at h
      split at h
      · exact Res.noConfusion h
      · next name1 name2 hnames =>
        split at h
        · exact Res.noConfusion h
        · exact Res.noConfusion h
        · next isCustom customCall s1 hget =>
          have hshape : StepOK s s1 := (getEqual_shape cfg s e _ s1 hget).stepOK
          split at h
          · exact stepOK_okE h hshape
          · split at h
            · exact StepOK_trans hshape (ihTyp cfg name e it true s1 r s' h)
            · split at h
              · exact Res.noConfusion h
              · exact Res.noConfusion h
              · next inner s2 hrec =>
                exact stepOK_okE h (StepOK_trans hshape
                  (ihTyp cfg _ e it true s1 inner s2 hrec))

/-- States with the same memo keys have the same remaining weight. -/
theorem remWeight_sameShape (cfg : Config) {s s1 : GState} (h : SameShape s s1) :
    remWeight cfg s1 = remWeight cfg s := by
  unfold remWeight
  rw [h.1]

/-- The remaining weight only decreases along a generator step. -/
theorem remWeight_stepOK (cfg : Config) {s s1 : GState} (h : StepOK s s1) :
    remWeight cfg s1 ≤ remWeight cfg s :=
  remWeightK_mono cfg.env (keysE s) (keysE s1) h.1

theorem needT_pos : ∀ typ : Typ, 1 ≤ needT typ := by
  intro typ
  cases typ <;> simp only [needT] <;> omega

theorem needF_pos : ∀ fs : FieldList, 1 ≤ needF fs := by
  intro fs
  cases fs <;> simp only [needF] <;> omega

/-- With fuel at least the call-depth bound of the requested shape plus
the weight of the not-yet-generated named types, no parse function runs
out of fuel: generation terminates (with a normal or fatal outcome) even
over self-referential type graphs. -/
theorem noFuel_all : ∀ fuel : Nat,
    (∀ cfg t s, t ∉ keysE s → 1 + remWeight cfg s ≤ fuel →
      parseTypeDefF cfg fuel t s ≠ Res.noFuel) ∧
    (∀ cfg name typ it ipr s, needT typ + remWeight cfg s ≤ fuel →
      parseTypeF cfg fuel name typ it ipr s ≠ Res.noFuel) ∧
    (∀ cfg fs s, needF fs + remWeight cfg s ≤ fuel →
      parseStructF cfg fuel fs s ≠ Res.noFuel) ∧
    (∀ cfg name tn tp it ipr s, 2 + remWeight cfg s ≤ fuel →
      parseNamedF cfg fuel name tn tp it ipr s ≠ Res.noFuel) ∧
    (∀ cfg name e it s, 1 + needT e + remWeight cfg s ≤ fuel →
      parseSliceF cfg fuel name e it s ≠ Res.noFuel) ∧
    (∀ cfg name e it ipr s, 1 + needT e + remWeight cfg s ≤ fuel →
      parseArrayF cfg fuel name e it ipr s ≠ Res.noFuel) ∧
    (∀ cfg name e it s, 1 + needT e + remWeight cfg s ≤ fuel →
      parseMapF cfg fuel name e it s ≠ Res.noFuel) ∧
    (∀ cfg name e it s, 1 + needT e + remWeight cfg s ≤ fuel →
      parsePointerF cfg fuel name e it s ≠ Res.noFuel) := by
  intro fuel
  induction fuel with
  | zero =>
    refine ⟨?_, ?_, ?_, ?_, ?_, ?_, ?_, ?_⟩
    · intro cfg t s _ hb
      omega
    · intro cfg name typ it ipr s hb
      have := needT_pos typ
      omega
    · intro cfg fs s hb
      have := needF_pos fs
      omega
    · intro cfg name tn tp it ipr s hb
      omega
    · intro cfg name e it s hb
      omega
    · intro cfg name e it ipr s hb
      omega
    · intro cfg name e it s hb
      omega
    · intro cfg name e it s hb
      omega
  | succ fuel ih =>
    obtain ⟨ihDef, ihTyp, ihStruct, ihNamed, ihSlice, ihArray, ihMap, ihPointer⟩ := ih
    refine ⟨?_, ?_, ?_, ?_, ?_, ?_, ?_, ?_⟩
    -- parseTypeDefF
    · intro cfg t s hmem hb
      simp only [parseTypeDefF]
      split
      · exact fun h => Res.noConfusion h
      · next τ hobj =>
        split
        · exact fun h => Res.noConfusion h
        · exact fun h => Res.noConfusion h
        · next hnf =>
          intro _
          have hins := remWeightK_insert cfg.env t τ (keysE s) hobj hmem
          refine ihTyp cfg t.name τ true false
            (GState.mk ((t, newCode t.name t.pkgPath) :: s.equals) s.equalsOrder
              (s.usedTypes ++ [t])) ?_ hnf
          have hkk : remWeight cfg (GState.mk ((t, newCode t.name t.pkgPath) :: s.equals)
              s.equalsOrder (s.usedTypes ++ [t])) = remWeightK cfg.env (t :: keysE s) := rfl
          rw [hkk]
          unfold remWeight at hb
          omega
    -- parseTypeF
    · intro cfg name typ it ipr s hb
      simp only [parseTypeF]
      split
      · exact fun h => Res.noConfusion h
      · next hget => exact fun _ => getEqual_not_noFuel cfg s typ hget
      · next isCustom customCall s1 hget =>
        have hrw : remWeight cfg s1 = remWeight cfg s :=
          remWeight_sameShape cfg (getEqual_shape cfg s typ _ s1 hget)
        split
        · split
          · exact fun h => Res.noConfusion h
          · split
            · exact fun h => Res.noConfusion h
            · exact fun h => Res.noConfusion h
        · split
          · next n p =>
            refine ihNamed cfg name n p it ipr s1 ?_
            simp only [needT] at hb
            omega
          · next fs =>
            refine ihStruct cfg fs s1 ?_
            simp only [needT] at hb
            omega
          · next k =>
            split
            · exact fun h => Res.noConfusion h
            · exact fun h => Res.noConfusion h
          · next e =>
            refine ihSlice cfg name e it s1 ?_
            simp only [needT] at hb
            omega
          · next len e =>
            refine ihArray cfg name e it ipr s1 ?_
            simp only [needT] at hb
            omega
          · next kt e =>
            refine ihMap cfg name e it s1 ?_
            simp only [needT] at hb
            omega
          · next e =>
            refine ihPointer cfg name e it s1 ?_
            simp only [needT] at hb
            omega
          · exact fun h => Res.noConfusion h
    -- parseStructF
    · intro cfg fs s hb
      cases fs with
      | nil =>
        simp only [parseStructF]
        exact fun h => Res.noConfusion h
      | cons fname ftyp rest =>
        simp only [parseStructF]
        have hmax1 := Nat.le_max_left (needT ftyp) (needF rest)
        have hmax2 := Nat.le_max_right (needT ftyp) (needF rest)
        simp only [needF] at hb
        split
        · exact fun h => Res.noConfusion h
        · next hnf =>
          exact fun _ => ihTyp cfg fname ftyp false false s (by omega) hnf
        · next str1 s1 h1 =>
          have hmono : remWeight cfg s1 ≤ remWeight cfg s :=
            remWeight_stepOK cfg ((stepOK_all fuel).2.1 cfg fname ftyp false false s str1 s1 h1)
          split
          · exact fun h => Res.noConfusion h
          · next hnf =>
            exact fun _ => ihStruct cfg rest s1 (by omega) hnf
          · exact fun h => Res.noConfusion h
    -- parseNamedF
    · intro cfg name tn tp it ipr s hb
      simp only [parseNamedF]
      split
      · exact fun h => Res.noConfusion h
      · next name1 name2 hnames =>
        split
        · exact fun h => Res.noConfusion h
        · next hlook =>
          intro _
          split at hlook
          · exact Res.noConfusion hlook
          · next hlook2 =>
            exact ihDef cfg (GoType.mk tn tp) s
              ((alookup_eq_none_iff s.equals (GoType.mk tn tp)).mp hlook2) (by omega) hlook
        · next s1 hdef =>
          split
          · exact fun h => Res.noConfusion h
          · next hnf => exact fun _ => getRefUpdate_not_noFuel cfg s1 tp ("Equal" ++ tn) hnf
          · next funcName s2 href =>
            split
            · exact fun h => Res.noConfusion h
            · split
              · exact fun h => Res.noConfusion h
              · exact fun h => Res.noConfusion h
    -- parseSliceF
    · intro cfg name e it s hb
      simp only [parseSliceF]
      split
      · exact fun h => Res.noConfusion h
      · next name1 name2 hnames =>
        split
        · exact fun h => Res.noConfusion h
        · next hget => exact fun _ => getEqual_not_noFuel cfg s e hget
        · next isCustom customCall s1 hget =>
          have hrw : remWeight cfg s1 = remWeight cfg s :=
            remWeight_sameShape cfg (getEqual_shape cfg s e _ s1 hget)
          split
          · exact fun h => Res.noConfusion h
          · split
            · split
              · exact fun h => Res.noConfusion h
              · next hnf =>
                exact fun _ => getRefUpdate_not_noFuel cfg s1 "bytes" "Equal" hnf
              · exact fun h => Res.noConfusion h
            · split
              · exact fun h => Res.noConfusion h
              · next hnf =>
                exact fun _ => ihTyp cfg _ e it false s1 (by omega) hnf
              · exact fun h => Res.noConfusion h
    -- parseArrayF
    · intro cfg name e it ipr s hb
      simp only [parseArrayF]
      split
      · exact fun h => Res.noConfusion h
      · next hget => exact fun _ => getEqual_not_noFuel cfg s e hget
      · next isCustom customCall s1 hget =>
        have hrw : remWeight cfg s1 = remWeight cfg s :=
          remWeight_sameShape cfg (getEqual_shape cfg s e _ s1 hget)
        split
        · exact fun h => Res.noConfusion h
        · split
          · exact fun h => Res.noConfusion h
          · next name1 name2 hnames =>
            split
            · exact fun h => Res.noConfusion h
            · split
              · exact fun h => Res.noConfusion h
              · next hnf =>
                exact fun _ => ihTyp cfg _ e it false s1 (by omega) hnf
              · exact fun h => Res.noConfusion h
    -- parseMapF
    · intro cfg name e it s hb
      simp only [parseMapF]
      split
      · exact fun h => Res.noConfusion h
      · next name1 name2 hnames =>
        split
        · exact fun h => Res.noConfusion h
        · next value1 value2 hvals =>
          split
          · exact fun h => Res.noConfusion h
          · next hget => exact fun _ => getEqual_not_noFuel cfg s e hget
          · next isCustom customCall s1 hget =>
            have hrw : remWeight cfg s1 = remWeight cfg s :=
              remWeight_sameShape cfg (getEqual_shape cfg s e _ s1 hget)
            split
            · exact fun h => Res.noConfusion h
            · split
              · exact fun h => Res.noConfusion h
              · next hnf =>
                exact fun _ => ihTyp cfg _ e it false s1 (by omega) hnf
              · exact fun h => Res.noConfusion h
    -- parsePointerF
    · intro cfg name e it s hb
      simp only [parsePointerF]
      split
      · exact fun h => Res.noConfusion h
      · next name1 name2 hnames =>
        split
        · exact fun h => Res.noConfusion h
        · next hget => exact fun _ => getEqual_not_noFuel cfg s e hget
        · next isCustom customCall s1 hget =>
          have hrw : remWeight cfg s1 = remWeight cfg s :=
            remWeight_sameShape cfg (getEqual_shape cfg s e _ s1 hget)
          split
          · exact fun h => Res.noConfusion h
          · split
            · exact ihTyp cfg name e it true s1 (by omega)
            · split
              · exact fun h => Res.noConfusion h
              · next hnf =>
                exact fun _ => ihTyp cfg _ e it true s1 (by omega) hnf
              · exact fun h => Res.noConfusion h

/-- On the empty memo map the remaining weight is the whole environment's
weight. -/
theorem remWeight_initState (cfg : Config) :
    remWeight cfg initState = ((cfg.env.map (fun e => needT e.2 + 2)).sum) := by
  unfold remWeight remWeightK
  have : cfg.env.filter (fun e => !(decide (e.1 ∈ keysE initState))) = cfg.env := by
    refine List.filter_eq_self.mpr (fun a _ => ?_)
    simp [keysE, initState]
  rw [this]

/-- A self-referential example type `C { next *C }`. -/
def tyC : GoType := GoType.mk "C" "mypkg"

/-- Catalog with the cyclic definition `type C struct { next *C }`. -/
def cfgC : Config := Config.mk
  [(tyC, Typ.structT (FieldList.cons "next" (Typ.pointerT (Typ.namedT "C" "mypkg"))
      FieldList.nil))]
  (fun _ => false) (fun p => p) (fun _ _ => "")

/-- C1: with fuel at least `fuelBound`, a generation session never runs
out of fuel — it terminates even over a type graph that refers back to
itself — and on success the memo map has pairwise-distinct keys, the
completion order has no duplicate entries, and the completion order
contains exactly the generated types: one unit per distinct named type. -/
theorem c1_memoization_unique_units : ∀ (cfg : Config) (root : GoType) (fuel : Nat),
    fuelBound cfg ≤ fuel →
    generate cfg fuel root ≠ Res.noFuel ∧
    (∀ s, generate cfg fuel root = Res.ok s →
      (keysE s).Nodup ∧ s.equalsOrder.Nodup ∧ (∀ t, t ∈ s.equalsOrder ↔ t ∈ keysE s)) := by
  intro cfg root fuel hf
  have hmem0 : root ∉ keysE initState := by simp [keysE, initState]
  have hb : 1 + remWeight cfg initState ≤ fuel := by
    rw [remWeight_initState]
    unfold fuelBound at hf
    omega
  constructor
  · exact (noFuel_all fuel).1 cfg root initState hmem0 hb
  · intro s hgen
    have hstep := (stepOK_all fuel).1 cfg root initState s hmem0 hgen
    obtain ⟨m1, ⟨l, ho, hn, hl, hc⟩, hd, hu⟩ := hstep
    have hor : s.equalsOrder = l := by simpa [initState] using ho
    refine ⟨hd List.nodup_nil, hor ▸ hn, fun t => ?_⟩
    rw [hor]
    constructor
    · intro ht
      exact (hl t ht).1
    · intro ht
      rcases hc t ht with h | h
      · exact absurd h (by simp [keysE, initState])
      · exact h

/-- Witness for C1: the cyclic catalog `C { next *C }` generates with the
computed fuel bound and yields a duplicate-free completion order. -/
theorem c1_memoization_unique_units_witness :
    generate cfgC 10 tyC ≠ Res.noFuel ∧
    (sessionOrder (generate cfgC 10 tyC)).Nodup := by
  have h := c1_memoization_unique_units cfgC tyC 10 (by decide)
  refine ⟨h.1, ?_⟩
  cases hgen : generate cfgC 10 tyC with
  | ok s =>
    have := (h.2 s hgen).2.1
    simpa [sessionOrder] using this
  | fatal m => simp [sessionOrder]
  | noFuel => simp [sessionOrder]

/-- C2 (amended): the generated routine of a named type takes normalized
pointer subjects with the identity and nil prologue exactly when the
source's `isPointer` rejects the underlying kind, i.e. exactly for Record
(struct) and FixedArray (array) underliers; a Primitive (basic) underlier
— like Sequence, Map, Indirection, Dynamic and Opaque kinds — is passed
directly with no prologue. -/
theorem c2_value_like_prologue_amended :
    (∀ cfg fuel t τ s s', findObjE cfg t = some τ →
      parseTypeDefF cfg (fuel+1) t s = Res.ok s' →
      ∃ body, (alookup s'.equals t).map (fun c => c.codeStr) =
        some ((if isPointer τ then
            "func Equal" ++ t.name ++ "(t1, t2 " ++ t.name ++ ") bool \x7b\n"
          else
            "func Equal" ++ t.name ++ "(t1, t2 *" ++ t.name ++ ") bool \x7b\n" ++
              "if t1 == t2 \x7b\nreturn true\n\x7d\nif t1 == nil || t2 == nil \x7b\nreturn false\n\x7d\n") ++
          body ++ "return true\n\x7d")) ∧
    (∀ fs, isPointer (Typ.structT fs) = false) ∧
    (∀ n e, isPointer (Typ.arrayT n e) = false) ∧
    (∀ k, isPointer (Typ.basicT k) = true) ∧
    (∀ e, isPointer (Typ.sliceT e) = true) ∧
    (∀ k e, isPointer (Typ.mapT k e) = true) ∧
    (∀ e, isPointer (Typ.pointerT e) = true) ∧
    isPointer Typ.interfaceT = true ∧ isPointer Typ.chanT = true ∧
    isPointer Typ.signatureT = true := by
  refine ⟨?_, fun fs => rfl, fun n e => rfl, fun k => rfl, fun e => rfl,
    fun k e => rfl, fun e => rfl, rfl, rfl, rfl⟩
  intro cfg fuel t τ s s' hobj h
  simp only [parseTypeDefF, hobj] at h
  split at h
  · next body s2 hbody =>
    injection h with h'
    subst h'
    refine ⟨body, ?_⟩
    have hstep := (stepOK_all fuel).2.1 cfg t.name τ true false _ body s2 hbody
    have hmem1 : t ∈ keysE (GState.mk ((t, newCode t.name t.pkgPath) :: s.equals)
        s.equalsOrder (s.usedTypes ++ [t])) := List.mem_cons_self _ _
    obtain ⟨c, hc⟩ := (mem_keysE_alookup s2 t).mp (hstep.1 t hmem1)
    dsimp only
    rw [alookup_updateEquals_self, hc]
    rfl
  · exact Res.noConfusion h
  · exact Res.noConfusion h

/-- A record type `S { f int }` used as the amended-C2 witness input. -/
def tyS : GoType := GoType.mk "S" "mypkg"

/-- Catalog with `type S struct { f int }`. -/
def cfgS : Config := Config.mk
  [(tyS, Typ.structT (FieldList.cons "f" (Typ.basicT BasicKind.intK) FieldList.nil))]
  (fun _ => false) (fun p => p) (fun _ _ => "")

/-- The final state of generating `S`. -/
def sSfin : GState := GState.mk
  [(tyS, Code.mk "S" "mypkg"
    "func EqualS(t1, t2 *S) bool \x7b\nif t1 == t2 \x7b\nreturn true\n\x7d\nif t1 == nil || t2 == nil \x7b\nreturn false\n\x7d\nif t1.f != t2.f \x7b\nreturn false\n\x7d\nreturn true\n\x7d"
    [])]
  [tyS] []

/-- Witness for the amended C2: a Record underlier gets the pointer form
with the identity and nil prologue. -/
theorem c2_value_like_prologue_amended_witness :
    ∃ body, (alookup sSfin.equals tyS).map (fun c => c.codeStr) =
      some ("func EqualS(t1, t2 *S) bool \x7b\nif t1 == t2 \x7b\nreturn true\n\x7d\nif t1 == nil || t2 == nil \x7b\nreturn false\n\x7d\n" ++
        body ++ "return true\n\x7d") :=
  c2_value_like_prologue_amended.1 cfgS 4 tyS
    (Typ.structT (FieldList.cons "f" (Typ.basicT BasicKind.intK) FieldList.nil))
    initState sSfin (by rfl) (by decide)

/-- A field type the synthesizer skips entirely: a foreign (GOROOT) named
type, or an opaque channel / function type.  (`Dynamic` interfaces are
NOT skipped — they get a `reflect.DeepEqual` call.) -/
def skippedField (cfg : Config) : Typ → Prop
  | Typ.namedT _ p => cfg.isStd p = true
  | Typ.chanT => True
  | Typ.signatureT => True
  | _ => False

/-- Every field of the list is skipped. -/
def allSkipped (cfg : Config) : FieldList → Prop
  | FieldList.nil => True
  | FieldList.cons _ t rest => skippedField cfg t ∧ allSkipped cfg rest

/-- A skipped field type synthesizes the empty fragment and leaves the
state untouched. -/
theorem parseTypeF_skipped (cfg : Config) (τ : Typ) (hsk : skippedField cfg τ) :
    ∀ (f : Nat) (nm : String) (s : GState),
      parseTypeF cfg (f+1) nm τ false false s = Res.ok ("", s) := by
  intro f nm s
  cases τ
  case namedT n p =>
    have hstd : cfg.isStd p = true := hsk
    simp [parseTypeF, getEqualFunctionNameF, hstd]
  case chanT => simp [parseTypeF, getEqualFunctionNameF]
  case signatureT => simp [parseTypeF, getEqualFunctionNameF]
  all_goals exact absurd hsk (by simp [skippedField])

/-- A record all of whose fields are skipped synthesizes the empty body
and leaves the state untouched. -/
theorem parseStructF_allSkipped (cfg : Config) :
    ∀ (fs : FieldList) (fuel : Nat) (s : GState), allSkipped cfg fs →
      needF fs ≤ fuel → parseStructF cfg fuel fs s = Res.ok ("", s)
  | FieldList.nil, fuel, s, _, hb => by
    simp only [needF] at hb
    obtain ⟨f, rfl⟩ : ∃ f, fuel = f + 1 := ⟨fuel - 1, by omega⟩
    rfl
  | FieldList.cons fname ftyp rest, fuel, s, hsk, hb => by
    have h1 := needT_pos ftyp
    have h2 := needF_pos rest
    have hm1 := Nat.le_max_left (needT ftyp) (needF rest)
    have hm2 := Nat.le_max_right (needT ftyp) (needF rest)
    simp only [needF] at hb
    obtain ⟨f, rfl⟩ : ∃ f, fuel = f + 1 := ⟨fuel - 1, by omega⟩
    obtain ⟨f2, rfl⟩ : ∃ f2, f = f2 + 1 := ⟨f - 1, by omega⟩
    have hfield := parseTypeF_skipped cfg ftyp hsk.1 f2 fname s
    have hrest := parseStructF_allSkipped cfg rest (f2 + 1) s hsk.2 (by omega)
    simp only [parseStructF, hfield, hrest]
    rfl

/-- C10: the generated routine for a named record whose fields are all
skipped (foreign-with-no-comparison or opaque; in particular a record
with no fields) is the prologue alone followed by `return true`: its
denotation returns equal for any two non-nil subjects regardless of the
subjects' contents; only the identity and nil prologue can return
unequal. -/
theorem c10_all_fields_skipped :
    (∀ (cfg : Config) (t : GoType) (fs : FieldList) (fuel : Nat) (s' : GState),
      findObjE cfg t = some (Typ.structT fs) → allSkipped cfg fs →
      needF fs + 2 ≤ fuel → generate cfg fuel t = Res.ok s' →
      (alookup s'.equals t).map (fun c => c.codeStr) =
        some ("func Equal" ++ t.name ++ "(t1, t2 *" ++ t.name ++ ") bool \x7b\n" ++
          "if t1 == t2 \x7b\nreturn true\n\x7d\nif t1 == nil || t2 == nil \x7b\nreturn false\n\x7d\n" ++
          "return true\n\x7d")) ∧
    (∀ (p q : Ptr Unit), isNilP p = false → isNilP q = false →
      emptyBodyRoutine p q = true) := by
  constructor
  · intro cfg t fs fuel s' hobj hsk hb hgen
    have h2 := needF_pos fs
    obtain ⟨f, rfl⟩ : ∃ f, fuel = f + 1 := ⟨fuel - 1, by omega⟩
    obtain ⟨f2, rfl⟩ : ∃ f2, f = f2 + 1 := ⟨f - 1, by omega⟩
    unfold generate at hgen
    simp only [parseTypeDefF, hobj] at hgen
    have hge : ∀ s : GState, getEqualFunctionNameF cfg s (Typ.structT fs) =
        Res.ok ((false, ""), s) := fun s => rfl
    have hbody := parseStructF_allSkipped cfg fs f2
      (GState.mk ((t, newCode t.name t.pkgPath) :: initState.equals)
        initState.equalsOrder (initState.usedTypes ++ [t])) hsk (by omega)
    have hip : isPointer (Typ.structT fs) = false := rfl
    rw [hip] at hgen
    simp only [Bool.false_eq_true, if_false, parseTypeF, hge, hbody] at hgen
    injection hgen with h'
    subst h'
    dsimp only
    rw [alookup_updateEquals_self]
    have hlook : alookup (GState.mk ((t, newCode t.name t.pkgPath) :: initState.equals)
        initState.equalsOrder (initState.usedTypes ++ [t])).equals t =
        some (newCode t.name t.pkgPath) := by
      show alookup ((t, newCode t.name t.pkgPath) :: initState.equals) t = _
      rw [alookup_cons, if_pos rfl]
    rw [hlook]
    dsimp only [Option.map, newCode]
    rw [String.append_empty]
  · intro p q hp hq
    cases p with
    | none => cases hp
    | some a =>
      cases q with
      | none => cases hq
      | some b =>
        obtain ⟨a1, a2⟩ := a
        obtain ⟨b1, b2⟩ := b
        by_cases hab : a1 = b1 <;> simp [emptyBodyRoutine, sameRef, isNilP, hab]

/-- A record type `W` whose two fields are a channel and a foreign
(GOROOT) named type — both skipped by the synthesizer. -/
def tyW : GoType := GoType.mk "W" "mypkg"

/-- Catalog with `type W struct { a chan int; b time.Time }`. -/
def cfgW : Config := Config.mk
  [(tyW, Typ.structT (FieldList.cons "a" Typ.chanT
      (FieldList.cons "b" (Typ.namedT "Time" "time") FieldList.nil)))]
  (fun p => p = "time") (fun p => p) (fun _ _ => "")

/-- The final state of generating `W`. -/
def sWfin : GState := GState.mk
  [(tyW, Code.mk "W" "mypkg"
    "func EqualW(t1, t2 *W) bool \x7b\nif t1 == t2 \x7b\nreturn true\n\x7d\nif t1 == nil || t2 == nil \x7b\nreturn false\n\x7d\nreturn true\n\x7d"
    [])]
  [tyW] []

/-- Witness for C10: all-skipped record `W`. -/
theorem c10_all_fields_skipped_witness :
    (alookup sWfin.equals tyW).map (fun c => c.codeStr) =
      some ("func Equal" ++ tyW.name ++ "(t1, t2 *" ++ tyW.name ++ ") bool \x7b\n" ++
        "if t1 == t2 \x7b\nreturn true\n\x7d\nif t1 == nil || t2 == nil \x7b\nreturn false\n\x7d\n" ++
        "return true\n\x7d") :=
  c10_all_fields_skipped.1 cfgW tyW
    (FieldList.cons "a" Typ.chanT
      (FieldList.cons "b" (Typ.namedT "Time" "time") FieldList.nil))
    7 sWfin (by rfl) (by exact ⟨trivial, rfl, trivial⟩) (by decide) (by decide)

/-- C7 (amended): the comparison generated for a slice position emits a
length-equality check first and stops there when the element type is
foreign-with-no-comparison; when the element kind is a byte-like
primitive, the whole comparison — including the length check — is
replaced by a single call to the optimized byte-sequence equality (which
handles lengths internally); in every other case — whatever the custom
comparison lookup returned, including Dynamic elements whose loop body
calls the reflection deep-equality helper — a length check followed by an
index loop over a freshly allocated index identifier whose body compares
the element type at the indexed position. -/
theorem c7_slice_shape_amended :
    ∀ (cfg : Config) (fuel : Nat) (name : String) (isType : Bool) (s : GState)
      (n1 n2 : String), getNames name isType = some (n1, n2) →
    ((∀ elem s1, getEqualFunctionNameF cfg s elem = Res.ok ((true, ""), s1) →
        parseSliceF cfg (fuel+1) name elem isType s =
          Res.ok ("if len(" ++ n1 ++ ") != len(" ++ n2 ++ ") \x7b\nreturn false\n\x7d\n", s1)) ∧
     (∀ fn s2, getReferenceUpdateImports cfg s "bytes" "Equal" = Res.ok (fn, s2) →
        parseSliceF cfg (fuel+1) name (Typ.basicT BasicKind.byteK) isType s =
          Res.ok ("if !" ++ fn ++ "(" ++ n1 ++ ", " ++ n2 ++ ") \x7b\n return false\n\x7d\n", s2)) ∧
     (∀ elem isCustom customCall s1 inner s2,
        getEqualFunctionNameF cfg s elem = Res.ok ((isCustom, customCall), s1) →
        (isCustom && customCall = "") = false →
        isByteBasic elem = false →
        parseTypeF cfg fuel (name ++ "[" ++ ("i" ++ natReprS (findNextUsableIndex name "i")) ++ "]")
          elem isType false s1 = Res.ok (inner, s2) →
        parseSliceF cfg (fuel+1) name elem isType s =
          Res.ok ("if len(" ++ n1 ++ ") != len(" ++ n2 ++ ") \x7b\nreturn false\n\x7d\n" ++
            "for " ++ ("i" ++ natReprS (findNextUsableIndex name "i")) ++ " := range " ++ n1 ++
            " \x7b\n" ++ inner ++ "\x7d\n", s2))) := by
  intro cfg fuel name isType s n1 n2 hnames
  refine ⟨?_, ?_, ?_⟩
  · intro elem s1 hget
    simp [parseSliceF, hnames, hget]
  · intro fn s2 href
    have hget : getEqualFunctionNameF cfg s (Typ.basicT BasicKind.byteK) =
        Res.ok ((false, ""), s) := rfl
    simp [parseSliceF, hnames, hget, isByteBasic, href]
  · intro elem isCustom customCall s1 inner s2 hget hcond hbyte hrec
    simp [parseSliceF, hnames, hget, hcond, hbyte, hrec]

/-- A mid-generation state: the unit for `P` is registered and `P` is the
current type on the stack. -/
def sPmid : GState := GState.mk [(tyP, newCode "P" "mypkg")] [] [tyP]

/-- The same state after recording the `bytes` import. -/
def sPmid2 : GState := GState.mk [(tyP, Code.mk "P" "mypkg" "" ["bytes"])] [] [tyP]

/-- The same state after recording the `reflect` import. -/
def sPmid3 : GState := GState.mk [(tyP, Code.mk "P" "mypkg" "" ["reflect"])] [] [tyP]

/-- Witness for the amended C7: concrete applications of all the slice
shapes (foreign element, byte element, ordinary element, and a Dynamic
element compared through the reflection deep-equality helper) at the
field position `x` of the package containing `P`. -/
theorem c7_slice_shape_amended_witness :
    parseSliceF cfgP 5 "x" (Typ.namedT "Time" "time") false sPmid =
      Res.ok ("if len(t1.x) != len(t2.x) \x7b\nreturn false\n\x7d\n", sPmid) ∧
    parseSliceF cfgP 5 "x" (Typ.basicT BasicKind.byteK) false sPmid =
      Res.ok ("if !bytes.Equal(t1.x, t2.x) \x7b\n return false\n\x7d\n", sPmid2) ∧
    parseSliceF cfgP 5 "x" (Typ.basicT BasicKind.intK) false sPmid =
      Res.ok ("if len(t1.x) != len(t2.x) \x7b\nreturn false\n\x7d\n" ++
        "for i1 := range t1.x \x7b\nif t1.x[i1] != t2.x[i1] \x7b\nreturn false\n\x7d\n\x7d\n",
        sPmid) ∧
    parseSliceF cfgP 5 "x" Typ.interfaceT false sPmid =
      Res.ok ("if len(t1.x) != len(t2.x) \x7b\nreturn false\n\x7d\n" ++
        "for i1 := range t1.x \x7b\nif !reflect.DeepEqual(t1.x[i1], t2.x[i1]) \x7b\n return false\n\x7d\n\x7d\n",
        sPmid3) := by
  have h := c7_slice_shape_amended cfgP 4 "x" false sPmid "t1.x" "t2.x" (by rfl)
  refine ⟨h.1 (Typ.namedT "Time" "time") sPmid (by rfl), ?_, ?_, ?_⟩
  · exact h.2.1 "bytes.Equal" sPmid2 (by decide)
  · exact h.2.2 (Typ.basicT BasicKind.intK) false "" sPmid
      "if t1.x[i1] != t2.x[i1] \x7b\nreturn false\n\x7d\n" sPmid (by rfl) (by decide)
      (by rfl) (by decide)
  · exact h.2.2 Typ.interfaceT true "reflect.DeepEqual" sPmid3
      "if !reflect.DeepEqual(t1.x[i1], t2.x[i1]) \x7b\n return false\n\x7d\n" sPmid3
      (by decide) (by decide) (by rfl) (by decide)

theorem getD_mem_of_lt {α : Type} (d : α) :
    ∀ (l : List α) (i : Nat), i < l.length → l.getD i d ∈ l := by
  intro l
  induction l with
  | nil => intro i h; cases h
  | cons c r ih =>
    intro i h
    cases i with
    | zero => exact List.mem_cons_self c r
    | succ j => exact List.mem_cons_of_mem c (ih j (by simpa using h))

theorem drop_append_len {α : Type} (u w : List α) (j : Nat) :
    (u ++ w).drop (u.length + j) = w.drop j := by
  rw [← List.drop_drop, List.drop_left]

theorem matchAt_true_iff (cs pat : List Char) (i : Nat) :
    matchAt cs pat i = true ↔ (cs.drop i).take pat.length = pat := by
  unfold matchAt subAt
  exact decide_eq_true_iff

theorem matchAt_append_right (u w pat : List Char) (j : Nat) :
    matchAt (u ++ w) pat (u.length + j) = matchAt w pat j := by
  unfold matchAt subAt
  rw [drop_append_len]

theorem getC_eq_drop_head (cs : List Char) (i : Nat) :
    getC cs i = (cs.drop i).getD 0 ' ' := by
  unfold getC
  induction cs generalizing i with
  | nil => simp
  | cons a as ih =>
    cases i with
    | zero => simp
    | succ j => simp [ih j]

theorem matchAt_head (cs pat : List Char) (i : Nat) (c0 : Char) (prest : List Char)
    (hp : pat = c0 :: prest) (h : matchAt cs pat i = true) : getC cs i = c0 := by
  subst hp
  rw [matchAt_true_iff] at h
  cases hd : cs.drop i with
  | nil =>
    rw [hd] at h
    simp at h
  | cons x r =>
    rw [hd] at h
    simp only [List.length_cons, List.take_succ_cons] at h
    injection h with h1 h2
    rw [getC_eq_drop_head, hd]
    exact h1

theorem matchAt_beyond (cs pat : List Char) (i : Nat) (hpat : pat ≠ [])
    (h : cs.length ≤ i) : matchAt cs pat i = false := by
  have hd : cs.drop i = [] := List.drop_eq_nil_of_le h
  unfold matchAt subAt
  rw [hd]
  simp only [List.take_nil]
  cases pat with
  | nil => exact absurd rfl hpat
  | cons a r => simp

theorem containsLB_false_all (cs pat : List Char) (hpat : pat ≠ [])
    (h : containsLB cs pat = false) : ∀ j, matchAt cs pat j = false := by
  intro j
  by_cases hj : j < cs.length
  · unfold containsLB at h
    rw [List.any_eq_false] at h
    exact Bool.eq_false_iff.mpr (h j (List.mem_range.mpr hj))
  · exact matchAt_beyond cs pat j hpat (by omega)

theorem lastOccurGo_eq_some (cs pat : List Char) (i0 : Nat)
    (huniq : ∀ i, matchAt cs pat i = true → i = i0)
    (hm : matchAt cs pat i0 = true) :
    ∀ n, i0 < n → lastOccurGo cs pat n = some i0 := by
  intro n
  induction n with
  | zero => intro h; cases h
  | succ m ih =>
    intro h
    simp only [lastOccurGo]
    by_cases hmm : matchAt cs pat m = true
    · have := huniq m hmm
      subst this
      rw [if_pos hmm]
    · rw [if_neg hmm]
      have : i0 ≠ m := fun hc => hmm (hc ▸ hm)
      exact ih (by omega)

theorem firstIdx_append (p : Char → Bool) :
    ∀ (xs : List Char) (y : Char) (zs : List Char), (∀ x ∈ xs, p x = false) →
      p y = true → firstIdx p (xs ++ y :: zs) = some xs.length := by
  intro xs
  induction xs with
  | nil =>
    intro y zs _ hy
    simp [firstIdx, hy]
  | cons a r ih =>
    intro y zs hall hy
    have ha : p a = false := hall a (List.mem_cons_self a r)
    show firstIdx p (a :: (r ++ y :: zs)) = some (r.length + 1)
    simp only [firstIdx, ha, Bool.false_eq_true, if_false]
    rw [ih y zs (fun x hx => hall x (List.mem_cons_of_mem a hx)) hy]
    rfl

theorem digitChar_digit (n : Nat) (h : n < 10) : isDigitC (digitChar n) = true := by
  interval_cases n <;> decide

theorem natReprAux_digits : ∀ (fuel n : Nat), ∀ c ∈ natReprAux fuel n, isDigitC c = true := by
  intro fuel
  induction fuel with
  | zero => intro n c hc; cases hc
  | succ f ih =>
    intro n c hc
    simp only [natReprAux] at hc
    by_cases hn : n < 10
    · rw [if_pos hn] at hc
      rw [List.mem_singleton] at hc
      subst hc
      exact digitChar_digit n hn
    · rw [if_neg hn] at hc
      rcases List.mem_append.mp hc with h | h
      · exact ih (n / 10) c h
      · rw [List.mem_singleton] at h
        subst h
        exact digitChar_digit (n % 10) (Nat.mod_lt n (by omega))

theorem natRepr_digits (n : Nat) : ∀ c ∈ natRepr n, isDigitC c = true :=
  natReprAux_digits (n + 1) n

theorem natRepr_ne_nil (n : Nat) : natRepr n ≠ [] := by
  unfold natRepr natReprAux
  by_cases hn : n < 10
  · rw [if_pos hn]
    simp
  · rw [if_neg hn]
    simp

theorem wordChar_not_paren (c : Char) (h : wordChar c = true) : c ≠ '(' ∧ c ≠ ')' := by
  constructor
  · intro hc
    subst hc
    exact absurd h (by decide)
  · intro hc
    subst hc
    exact absurd h (by decide)

theorem flupAux_no_paren : ∀ (l : List Char) (acc : List Nat) (i : Nat),
    (∀ c ∈ l, c ≠ '(' ∧ c ≠ ')') → flupAux l acc i = acc := by
  intro l
  induction l with
  | nil => intro acc i _; rfl
  | cons c r ih =>
    intro acc i hall
    have hc := hall c (List.mem_cons_self c r)
    simp only [flupAux, if_neg hc.1, if_neg hc.2]
    exact ih acc (i + 1) (fun x hx => hall x (List.mem_cons_of_mem c hx))

theorem flup_wordlike (v : List Char) (hv : ∀ c ∈ v, wordChar c = true) :
    findLastUnpairedParanthesesL v = none := by
  unfold findLastUnpairedParanthesesL
  rw [flupAux_no_paren v [] 0 (fun c hc => wordChar_not_paren c (hv c hc))]

theorem flup_deref_wordlike (v : List Char) (hv : ∀ c ∈ v, wordChar c = true) :
    findLastUnpairedParanthesesL ('(' :: '*' :: v) = some 0 := by
  unfold findLastUnpairedParanthesesL
  have h1 : flupAux ('(' :: '*' :: v) [] 0 = flupAux v [0] 2 := by
    simp [flupAux]
  rw [h1, flupAux_no_paren v [0] 2 (fun c hc => wordChar_not_paren c (hv c hc))]

theorem foldl_const {α β : Type} (f : α → β → α) (a : α) (hf : ∀ x, f a x = a) :
    ∀ l : List β, List.foldl f a l = a := by
  intro l
  induction l with
  | nil => rfl
  | cons x r ih =>
    simp only [List.foldl_cons, hf x]
    exact ih

/-- In a path of the shape `w ++ "[key" ++ digits ++ "]" ++ rest` where
`w` contains no `[`, the digits are digits and `rest` contains no
`"[key"`, the pattern `"[key"` occurs exactly at position `w.length`. -/
theorem keyPat_unique_occurrence (w ds rest : List Char)
    (hw : ∀ c ∈ w, c ≠ '[')
    (hds : ∀ c ∈ ds, isDigitC c = true)
    (hrest : ∀ j, matchAt rest keyPat j = false) :
    matchAt (w ++ keyPat ++ ds ++ ']' :: rest) keyPat w.length = true ∧
    ∀ i, matchAt (w ++ keyPat ++ ds ++ ']' :: rest) keyPat i = true → i = w.length := by
  have hassoc1 : w ++ keyPat ++ ds ++ ']' :: rest =
      w ++ (keyPat ++ (ds ++ ']' :: rest)) := by
    simp [List.append_assoc]
  constructor
  · rw [matchAt_true_iff, hassoc1]
    have hd : (w ++ (keyPat ++ (ds ++ ']' :: rest))).drop w.length =
        keyPat ++ (ds ++ ']' :: rest) := List.drop_left w _
    rw [hd]
    exact List.take_left keyPat (ds ++ ']' :: rest)
  · intro i hi
    have hhead := matchAt_head _ keyPat i '[' ['k', 'e', 'y'] rfl hi
    by_cases h1 : i < w.length
    · exfalso
      have hg : getC (w ++ keyPat ++ ds ++ ']' :: rest) i = w.getD i ' ' := by
        unfold getC
        rw [hassoc1]
        exact List.getD_append w _ ' ' i h1
      rw [hg] at hhead
      exact hw _ (getD_mem_of_lt ' ' w i h1) hhead
    · by_cases h2 : i = w.length
      · exact h2
      · exfalso
        have hgt : w.length < i := by omega
        by_cases h3 : i < w.length + 4 + ds.length + 1
        · obtain ⟨j, hj⟩ : ∃ j, i = (w.length + 1) + j := ⟨i - (w.length + 1), by omega⟩
          have hjlt : j < ('k' :: 'e' :: 'y' :: (ds ++ [']'])).length := by
            simp only [List.length_cons, List.length_append, List.length_singleton]
            omega
          have hassoc2 : w ++ keyPat ++ ds ++ ']' :: rest =
              (w ++ ['[']) ++ (('k' :: 'e' :: 'y' :: (ds ++ [']'])) ++ rest) := by
            simp [keyPat, List.append_assoc]
          have hlen2 : (w ++ ['[']).length = w.length + 1 := by simp
          have hgc : getC (w ++ keyPat ++ ds ++ ']' :: rest) i =
              ('k' :: 'e' :: 'y' :: (ds ++ [']'])).getD j ' ' := by
            unfold getC
            rw [hassoc2]
            rw [List.getD_append_right (w ++ ['[']) _ ' ' i (by rw [hlen2]; omega)]
            have hsub : i - (w ++ ['[']).length = j := by rw [hlen2]; omega
            rw [hsub]
            exact List.getD_append _ rest ' ' j hjlt
          rw [hgc] at hhead
          have hmem := getD_mem_of_lt ' ' ('k' :: 'e' :: 'y' :: (ds ++ [']'])) j hjlt
          rw [hhead] at hmem
          simp only [List.mem_cons, List.mem_append, List.mem_singleton] at hmem
          rcases hmem with h | h | h | h | h
          · exact absurd h (by decide)
          · exact absurd h (by decide)
          · exact absurd h (by decide)
          · exact absurd (hds '[' h) (by decide)
          · exact absurd h (by decide)
        · have hplen : (w ++ keyPat ++ ds ++ [']']).length =
              w.length + 4 + ds.length + 1 := by
            simp [keyPat]
            omega
          obtain ⟨j, hj⟩ : ∃ j, i = (w ++ keyPat ++ ds ++ [']']).length + j :=
            ⟨i - (w ++ keyPat ++ ds ++ [']']).length, by rw [hplen]; omega⟩
          have hassoc3 : w ++ keyPat ++ ds ++ ']' :: rest =
              (w ++ keyPat ++ ds ++ [']']) ++ rest := by
            simp [List.append_assoc]
          rw [hassoc3, hj, matchAt_append_right] at hi
          rw [hrest j] at hi
          exact Bool.noConfusion hi

/-- The captured-value substitution of `getNames`, plain shape: a path
`v ++ "[key" ++ digits ++ "]" ++ suffix` with a word-character variable
`v` becomes `value<digits>1/<2> ++ suffix` — the map-indexing expression
is replaced by the captured identifiers and the trailing suffix is kept
verbatim. -/
theorem getNamesL_key_subst (v ds suffix : List Char) (b : Bool)
    (hv : ∀ c ∈ v, wordChar c = true)
    (hds : ∀ c ∈ ds, isDigitC c = true)
    (hsufB : containsLB suffix keyPat = false) :
    getNamesL (v ++ keyPat ++ ds ++ ']' :: suffix) b =
      some ("value".toList ++ ds ++ '1' :: suffix,
            "value".toList ++ ds ++ '2' :: suffix) := by
  have hsuf : ∀ j, matchAt suffix keyPat j = false :=
    containsLB_false_all suffix keyPat (by decide) hsufB
  have hwne : ∀ c ∈ v, c ≠ '[' := by
    intro c hc hcontra
    subst hcontra
    exact absurd (hv _ hc) (by decide)
  obtain ⟨hm, huniq⟩ := keyPat_unique_occurrence v ds suffix hwne hds hsuf
  have hlast : lastOccur (v ++ keyPat ++ ds ++ ']' :: suffix) keyPat = some v.length := by
    unfold lastOccur
    refine lastOccurGo_eq_some _ _ v.length huniq hm _ ?_
    have hk : keyPat.length = 4 := rfl
    simp only [List.length_append, List.length_cons, hk]
    omega
  have hassoc : v ++ keyPat ++ ds ++ ']' :: suffix =
      (v ++ keyPat) ++ (ds ++ ']' :: suffix) := by
    simp [List.append_assoc]
  have hrest : (v ++ keyPat ++ ds ++ ']' :: suffix).drop (v.length + 4) =
      ds ++ ']' :: suffix := by
    rw [hassoc]
    have hl : (v ++ keyPat).length = v.length + 4 := by simp [keyPat]
    rw [← hl]
    exact List.drop_left (v ++ keyPat) _
  have hfi : firstIdx (fun c => !(isDigitC c)) (ds ++ ']' :: suffix) = some ds.length := by
    refine firstIdx_append _ ds ']' suffix (fun x hx => ?_) (by decide)
    simp [hds x hx]
  have hgc : getC (ds ++ ']' :: suffix) ds.length = ']' := by
    rw [getC_eq_drop_head, List.drop_left]
    rfl
  have htake : (ds ++ ']' :: suffix).take ds.length = ds := List.take_left ds (']' :: suffix)
  have hdropS : (ds ++ ']' :: suffix).drop (ds.length + 1) = suffix :=
    drop_append_len ds (']' :: suffix) 1
  have htakeV : (v ++ keyPat ++ ds ++ ']' :: suffix).take v.length = v := by
    rw [show v ++ keyPat ++ ds ++ ']' :: suffix = v ++ (keyPat ++ (ds ++ ']' :: suffix)) by
      simp [List.append_assoc]]
    exact List.take_left v _
  have hflup : findLastUnpairedParanthesesL
      ((v ++ keyPat ++ ds ++ ']' :: suffix).take v.length) = none := by
    rw [htakeV]
    exact flup_wordlike v hv
  simp only [getNamesL, hlast, hrest, hfi, hgc, if_pos, htake, hdropS, hflup]
  have hfold : suffix.foldl (fun acc r1 =>
      if r1 = ')' then
        match (none : Option Nat) with
        | some st => (v ++ keyPat ++ ds ++ ']' :: suffix).take (st + 2)
        | none => acc
      else acc) [] = [] := by
    refine foldl_const _ _ (fun x => ?_) suffix
    by_cases hx : x = ')' <;> simp [hx]
  rw [hfold]
  simp

/-- The captured-value substitution of `getNames`, dereferenced shape: a
path `(*v[key<digits>])suffix` becomes `(*value<digits>1/<2>)suffix` —
the unpaired `(*` prefix and the trailing suffix survive the
substitution unchanged. -/
theorem getNamesL_key_subst_deref (v ds suffix : List Char) (b : Bool)
    (hv : ∀ c ∈ v, wordChar c = true)
    (hds : ∀ c ∈ ds, isDigitC c = true)
    (hsufB : containsLB suffix keyPat = false) :
    getNamesL ('(' :: '*' :: v ++ keyPat ++ ds ++ ']' :: ')' :: suffix) b =
      some ('(' :: '*' :: ("value".toList ++ ds ++ '1' :: ')' :: suffix),
            '(' :: '*' :: ("value".toList ++ ds ++ '2' :: ')' :: suffix)) := by
  have hsuf : ∀ j, matchAt suffix keyPat j = false :=
    containsLB_false_all suffix keyPat (by decide) hsufB
  have hsuf' : ∀ j, matchAt (')' :: suffix) keyPat j = false := by
    intro j
    cases j with
    | zero =>
      by_contra hc
      rw [Bool.not_eq_false] at hc
      have := matchAt_head _ keyPat 0 '[' ['k', 'e', 'y'] rfl hc
      simp [getC] at this
    | succ k =>
      have he : matchAt ([')'] ++ suffix) keyPat (1 + k) = matchAt suffix keyPat k :=
        matchAt_append_right [')'] suffix keyPat k
      have hkk : k + 1 = 1 + k := by omega
      rw [hkk]
      rw [show (')' :: suffix) = [')'] ++ suffix from rfl, he]
      exact hsuf k
  have hwne : ∀ c ∈ '(' :: '*' :: v, c ≠ '[' := by
    intro c hc
    rcases List.mem_cons.mp hc with h | h
    · subst h; decide
    · rcases List.mem_cons.mp h with h' | h'
      · subst h'; decide
      · intro hcontra
        subst hcontra
        exact absurd (hv _ h') (by decide)
  have hsh : ('(' :: '*' :: v) ++ keyPat ++ ds ++ ']' :: (')' :: suffix) =
      '(' :: '*' :: v ++ keyPat ++ ds ++ ']' :: ')' :: suffix := rfl
  obtain ⟨hm, huniq⟩ := keyPat_unique_occurrence ('(' :: '*' :: v) ds (')' :: suffix)
    hwne hds hsuf'
  rw [hsh] at hm huniq
  have hwl : ('(' :: '*' :: v).length = v.length + 2 := by simp
  rw [hwl] at hm huniq
  have hlast : lastOccur ('(' :: '*' :: v ++ keyPat ++ ds ++ ']' :: ')' :: suffix) keyPat =
      some (v.length + 2) := by
    unfold lastOccur
    refine lastOccurGo_eq_some _ _ (v.length + 2) huniq hm _ ?_
    have hk : keyPat.length = 4 := rfl
    simp only [List.length_append, List.length_cons, hk]
    omega
  have hassoc : '(' :: '*' :: v ++ keyPat ++ ds ++ ']' :: ')' :: suffix =
      (('(' :: '*' :: v) ++ keyPat) ++ (ds ++ ']' :: ')' :: suffix) := by
    simp [List.append_assoc]
  have hrest : ('(' :: '*' :: v ++ keyPat ++ ds ++ ']' :: ')' :: suffix).drop
      (v.length + 2 + 4) = ds ++ ']' :: ')' :: suffix := by
    rw [hassoc]
    have hl : (('(' :: '*' :: v) ++ keyPat).length = v.length + 2 + 4 := by
      have hk : keyPat.length = 4 := rfl
      simp only [List.length_append, List.length_cons, hk]
    rw [← hl]
    exact List.drop_left _ _
  have hfi : firstIdx (fun c => !(isDigitC c)) (ds ++ ']' :: ')' :: suffix) =
      some ds.length := by
    refine firstIdx_append _ ds ']' (')' :: suffix) (fun x hx => ?_) (by decide)
    simp [hds x hx]
  have hgc : getC (ds ++ ']' :: ')' :: suffix) ds.length = ']' := by
    rw [getC_eq_drop_head, List.drop_left]
    rfl
  have htake : (ds ++ ']' :: ')' :: suffix).take ds.length = ds :=
    List.take_left ds (']' :: ')' :: suffix)
  have hdropS : (ds ++ ']' :: ')' :: suffix).drop (ds.length + 1) = ')' :: suffix :=
    drop_append_len ds (']' :: ')' :: suffix) 1
  have htakeV : ('(' :: '*' :: v ++ keyPat ++ ds ++ ']' :: ')' :: suffix).take
      (v.length + 2) = '(' :: '*' :: v := by
    rw [show '(' :: '*' :: v ++ keyPat ++ ds ++ ']' :: ')' :: suffix =
        ('(' :: '*' :: v) ++ (keyPat ++ (ds ++ ']' :: ')' :: suffix)) by
      simp [List.append_assoc]]
    rw [← hwl]
    exact List.take_left _ _
  have hflup : findLastUnpairedParanthesesL
      (('(' :: '*' :: v ++ keyPat ++ ds ++ ']' :: ')' :: suffix).take (v.length + 2)) =
      some 0 := by
    rw [htakeV]
    exact flup_deref_wordlike v hv
  simp only [getNamesL, hlast, hrest, hfi, hgc, if_pos, htake, hdropS, hflup]
  have hfold : (')' :: suffix).foldl (fun acc r1 =>
      if r1 = ')' then
        ('(' :: '*' :: v ++ keyPat ++ ds ++ ']' :: ')' :: suffix).take (0 + 2)
      else acc) [] = ['(', '*'] := by
    have hstep : (')' :: suffix).foldl (fun acc r1 =>
        if r1 = ')' then
          ('(' :: '*' :: v ++ keyPat ++ ds ++ ']' :: ')' :: suffix).take (0 + 2)
        else acc) [] = suffix.foldl (fun acc r1 =>
        if r1 = ')' then
          ('(' :: '*' :: v ++ keyPat ++ ds ++ ']' :: ')' :: suffix).take (0 + 2)
        else acc) ['(', '*'] := by
      simp [List.foldl_cons]
    rw [hstep]
    refine foldl_const _ _ (fun x => ?_) suffix
    by_cases hx : x = ')' <;> simp [hx]
  rw [hfold]
  simp

/-- C5: when the current position is a map-lookup result reached while
iterating that map, `getNames` substitutes the captured-value identifiers
`value<digits>1` / `value<digits>2` for the indexing expression, keeping
any unpaired `(*` dereference prefix and the trailing suffix unchanged:
in general for word-character variables, any digit string and any suffix
free of `"[key"`, and in particular `a[key1] ↦ value11/value12` and
`(*a[key1])[i2] ↦ (*value11)[i2]/(*value12)[i2]`. -/
theorem c5_captured_value_names :
    (∀ (v ds suffix : List Char) (b : Bool),
      (∀ c ∈ v, wordChar c = true) → (∀ c ∈ ds, isDigitC c = true) →
      containsLB suffix keyPat = false →
      getNamesL (v ++ keyPat ++ ds ++ ']' :: suffix) b =
        some ("value".toList ++ ds ++ '1' :: suffix,
              "value".toList ++ ds ++ '2' :: suffix)) ∧
    (∀ (v ds suffix : List Char) (b : Bool),
      (∀ c ∈ v, wordChar c = true) → (∀ c ∈ ds, isDigitC c = true) →
      containsLB suffix keyPat = false →
      getNamesL ('(' :: '*' :: v ++ keyPat ++ ds ++ ']' :: ')' :: suffix) b =
        some ('(' :: '*' :: ("value".toList ++ ds ++ '1' :: ')' :: suffix),
              '(' :: '*' :: ("value".toList ++ ds ++ '2' :: ')' :: suffix))) ∧
    getNames "a[key1]" false = some ("value11", "value12") ∧
    getNames "(*a[key1])[i2]" false = some ("(*value11)[i2]", "(*value12)[i2]") ∧
    getNames "a[key12][i2]" false = some ("value121[i2]", "value122[i2]") := by
  refine ⟨fun v ds suffix b hv hds hs => getNamesL_key_subst v ds suffix b hv hds hs,
    fun v ds suffix b hv hds hs => getNamesL_key_subst_deref v ds suffix b hv hds hs,
    by decide, by decide, by decide⟩

/-- Witness for C5: the general substitution shapes applied at the
claim's own examples. -/
theorem c5_captured_value_names_witness :
    getNamesL ("a".toList ++ keyPat ++ ['1'] ++ ']' :: []) false =
      some ("value".toList ++ ['1'] ++ '1' :: [], "value".toList ++ ['1'] ++ '2' :: []) ∧
    getNamesL ('(' :: '*' :: "a".toList ++ keyPat ++ ['1'] ++ ']' :: ')' :: "[i2]".toList) false =
      some ('(' :: '*' :: ("value".toList ++ ['1'] ++ '1' :: ')' :: "[i2]".toList),
            '(' :: '*' :: ("value".toList ++ ['1'] ++ '2' :: ')' :: "[i2]".toList)) :=
  ⟨c5_captured_value_names.1 "a".toList ['1'] [] false (by decide) (by decide) (by decide),
   c5_captured_value_names.2.1 "a".toList ['1'] "[i2]".toList false (by decide) (by decide)
     (by decide)⟩

/-- The identifier family stem as scanned by the generator: `"i"` for
sequence/array index loops, `"key"` for map key loops. -/
def famTok : Bool → List Char
  | true => ['i']
  | false => ['k', 'e', 'y']

/-- The search token `"[" ++ key` that `findNextUsableIndex` builds. -/
def tok (f : Bool) : List Char := '[' :: famTok f

/-- One auxiliary-identifier bracket group as the generator appends it to
a path (`name ++ "[" ++ indexName ++ "]"`). -/
def renderG (g : Bool × Nat) : List Char := '[' :: famTok g.1 ++ natRepr g.2 ++ [']']

/-- A whole chain of bracket groups. -/
def renderGs (gs : List (Bool × Nat)) : List Char := (gs.map renderG).flatten

/-- The number of the rightmost group of the given family. -/
def lastNumO (f : Bool) : List (Bool × Nat) → Option Nat
  | [] => none
  | g :: rest =>
    match lastNumO f rest with
    | some n => some n
    | none => if g.1 = f then some g.2 else none

/-- The number of the rightmost group of the family, zero when there is
none (so that the next allocation is uniformly `lastNum0 + 1`). -/
def lastNum0 (f : Bool) (gs : List (Bool × Nat)) : Nat := (lastNumO f gs).getD 0

/-- A structural type nested to some depth in sequences and maps: the
nesting chains of the identifier-allocation claim. -/
inductive Chain where
  | stopC : Chain
  | seqC (c : Chain) : Chain
  | mapC (c : Chain) : Chain

/-- The auxiliary loop identifiers the generator allocates along a
nesting chain, mirroring `parseSlice` (equal.go:470-474) and `parseMap`
(equal.go:512-516): each level calls `findNextUsableIndex` on the current
path and extends the path with the new bracket group. -/
def idsTrace (name : String) : Chain → List String
  | Chain.stopC => []
  | Chain.seqC c =>
    ("i" ++ natReprS (findNextUsableIndex name "i")) ::
      idsTrace (name ++ "[" ++ ("i" ++ natReprS (findNextUsableIndex name "i")) ++ "]") c
  | Chain.mapC c =>
    ("key" ++ natReprS (findNextUsableIndex name "key")) ::
      idsTrace (name ++ "[" ++ ("key" ++ natReprS (findNextUsableIndex name "key")) ++ "]") c

/-- The family stem as a string. -/
def famStr : Bool → String
  | true => "i"
  | false => "key"

/-- List-level form of `findNextUsableIndex`. -/
def findNextUsableIndexL (cs key : List Char) : Nat :=
  scanGoF cs ('[' :: key) cs.length (cs.length - 1) none

theorem findNextUsableIndex_eq_L (name key : String) :
    findNextUsableIndex name key = findNextUsableIndexL name.toList key.toList := rfl

theorem famStr_toList (f : Bool) : (famStr f).toList = famTok f := by
  cases f <;> rfl

theorem renderGs_append (gs : List (Bool × Nat)) (g : Bool × Nat) :
    renderGs (gs ++ [g]) = renderGs gs ++ renderG g := by
  simp [renderGs]

theorem lastNumO_concat (f : Bool) (gs : List (Bool × Nat)) (g : Bool × Nat) :
    lastNumO f (gs ++ [g]) = if g.1 = f then some g.2 else lastNumO f gs := by
  induction gs with
  | nil =>
    show (match lastNumO f [] with
          | some n => some n
          | none => if g.1 = f then some g.2 else none) =
        if g.1 = f then some g.2 else lastNumO f []
    by_cases h : g.1 = f
    · rw [if_pos h, if_pos h]
      rfl
    · rw [if_neg h, if_neg h]
      rfl
  | cons a rest ih =>
    have h1 : lastNumO f ((a :: rest) ++ [g]) =
        match lastNumO f (rest ++ [g]) with
        | some n => some n
        | none => if a.1 = f then some a.2 else none := rfl
    rw [h1, ih]
    by_cases h : g.1 = f
    · rw [if_pos h, if_pos h]
    · rw [if_neg h, if_neg h]
      rfl

theorem digitChar_toNat (n : Nat) (h : n < 10) : (digitChar n).toNat = 48 + n := by
  interval_cases n <;> decide

theorem natReprAux_foldl (step : Nat → Char → Nat)
    (hstep : step = fun a c => a * 10 + (c.toNat - 48)) :
    ∀ (fuel n a : Nat), n < fuel →
      List.foldl step a (natReprAux fuel n) =
        a * 10 ^ (natReprAux fuel n).length + n := by
  intro fuel
  induction fuel with
  | zero => intro n a h; cases h
  | succ f ih =>
    intro n a h
    simp only [natReprAux]
    by_cases hn : n < 10
    · rw [if_pos hn]
      simp only [hstep, List.foldl_cons, List.foldl_nil, List.length_cons,
        List.length_nil, pow_one, zero_add]
      rw [digitChar_toNat n hn]
      omega
    · rw [if_neg hn]
      have hdiv : n / 10 < f := by
        have h1 : n / 10 < n := Nat.div_lt_self (by omega) (by omega)
        omega
      rw [List.foldl_append]
      rw [ih (n / 10) a hdiv]
      simp only [hstep, List.foldl_cons, List.foldl_nil, List.length_append,
        List.length_cons, List.length_nil]
      rw [digitChar_toNat (n % 10) (Nat.mod_lt n (by omega))]
      have hmod : 48 + n % 10 - 48 = n % 10 := by omega
      rw [hmod, pow_succ, ← mul_assoc]
      omega

theorem atoiGo_natRepr (n : Nat) : atoiGo (natRepr n) = some n := by
  unfold atoiGo
  rw [if_pos ⟨natRepr_ne_nil n, List.all_eq_true.mpr (natRepr_digits n)⟩]
  congr 1
  have := natReprAux_foldl (fun a c => a * 10 + (c.toNat - 48)) rfl (n + 1) n 0
    (by omega)
  unfold natRepr
  rw [this]
  omega

theorem natRepr_injective (m n : Nat) (h : natRepr m = natRepr n) : m = n := by
  have h1 := atoiGo_natRepr m
  rw [h] at h1
  rw [atoiGo_natRepr n] at h1
  exact (Option.some.inj h1).symm

theorem tok_length_pos (f : Bool) : 1 ≤ (tok f).length := by
  cases f <;> decide

theorem tok_length_le (f : Bool) : (tok f).length ≤ 4 := by
  cases f <;> decide

theorem getC_append_lt : ∀ (q w : List Char) (i : Nat), i < q.length →
    getC (q ++ w) i = getC q i := by
  intro q
  induction q with
  | nil => intro w i h; cases h
  | cons a r ih =>
    intro w i h
    cases i with
    | zero => rfl
    | succ j =>
      show getC (r ++ w) j = getC r j
      exact ih w j (by simp only [List.length_cons] at h; omega)

theorem getC_append_ge : ∀ (q w : List Char) (i : Nat), q.length ≤ i →
    getC (q ++ w) i = getC w (i - q.length) := by
  intro q
  induction q with
  | nil => intro w i _; rfl
  | cons a r ih =>
    intro w i h
    cases i with
    | zero => simp only [List.length_cons] at h; exact absurd h (by omega)
    | succ j =>
      have hs : j + 1 - (a :: r).length = j - r.length := by
        simp only [List.length_cons]; omega
      rw [hs]
      exact ih w j (by simp only [List.length_cons] at h; omega)

theorem getC_ge_len : ∀ (q : List Char) (i : Nat), q.length ≤ i → getC q i = ' ' := by
  intro q
  induction q with
  | nil => intro i _; cases i <;> rfl
  | cons a r ih =>
    intro i h
    cases i with
    | zero => simp only [List.length_cons] at h; exact absurd h (by omega)
    | succ j => exact ih j (by simp only [List.length_cons] at h; omega)

theorem take_append_le {α : Type} : ∀ (q w : List α) (r : Nat), r ≤ q.length →
    (q ++ w).take r = q.take r := by
  intro q
  induction q with
  | nil =>
    intro w r h
    have h0 : r = 0 := by simpa using h
    subst h0
    rfl
  | cons a rest ih =>
    intro w r h
    cases r with
    | zero => rfl
    | succ j =>
      show a :: (rest ++ w).take j = a :: rest.take j
      rw [ih w j (by simp only [List.length_cons] at h; omega)]

theorem scanGoF_fuel_irrel (cs t : List Char) (ht : 1 ≤ t.length) :
    ∀ i f1 f2 rsb, i < f1 → i < f2 →
      scanGoF cs t f1 i rsb = scanGoF cs t f2 i rsb := by
  intro i
  induction i using Nat.strong_induction_on with
  | _ i ih =>
    intro f1 f2 rsb h1 h2
    obtain ⟨a, rfl⟩ : ∃ a, f1 = a + 1 := ⟨f1 - 1, by omega⟩
    obtain ⟨b, rfl⟩ : ∃ b, f2 = b + 1 := ⟨f2 - 1, by omega⟩
    cases i with
    | zero => rfl
    | succ k =>
      simp only [scanGoF]
      split
      · exact ih (k + 1 - t.length) (by omega) a b _ (by omega) (by omega)
      · split
        · split
          · split
            · rfl
            · exact ih k (by omega) a b _ (by omega) (by omega)
          · exact ih k (by omega) a b _ (by omega) (by omega)
        · exact ih k (by omega) a b _ (by omega) (by omega)

theorem scanGoF_step_rbr (cs t : List Char) (fuel i : Nat) (rsb : Option Nat)
    (hi : 0 < i) (h1 : getC cs i = ']') (h2 : getC cs (i - 1) ≠ '[') :
    scanGoF cs t (fuel + 1) i rsb = scanGoF cs t fuel (i - t.length) (some i) := by
  obtain ⟨j, rfl⟩ : ∃ j, i = j + 1 := ⟨i - 1, by omega⟩
  have h2' : getC cs j ≠ '[' := by
    have e : j + 1 - 1 = j := by omega
    rw [e] at h2
    exact h2
  simp only [scanGoF]
  have hc : (decide (getC cs (j + 1) = ']') && !decide (getC cs j = '[')) = true := by
    simp [h1, h2']
  rw [if_pos hc]

theorem scanGoF_step_skip (cs t : List Char) (fuel i R : Nat) (hi : 0 < i)
    (hne : getC cs i ≠ ']') (hm : subAt cs i t.length ≠ t) :
    scanGoF cs t (fuel + 1) i (some R) = scanGoF cs t fuel (i - 1) (some R) := by
  obtain ⟨j, rfl⟩ : ∃ j, i = j + 1 := ⟨i - 1, by omega⟩
  simp only [scanGoF]
  have hc : ¬((decide (getC cs (j + 1) = ']') && !decide (getC cs j = '[')) = true) := by
    simp [hne]
  rw [if_neg hc, if_neg hm]
  have e : j + 1 - 1 = j := by omega
  rw [e]

theorem scanGoF_step_hit (cs t : List Char) (fuel i R nn : Nat) (hi : 0 < i)
    (hne : getC cs i ≠ ']')
    (hm : subAt cs i t.length = t)
    (ha : atoiGo (sliceCs cs (i + t.length) R) = some nn) :
    scanGoF cs t (fuel + 1) i (some R) = nn + 1 := by
  obtain ⟨j, rfl⟩ : ∃ j, i = j + 1 := ⟨i - 1, by omega⟩
  simp only [scanGoF]
  have hc : ¬((decide (getC cs (j + 1) = ']') && !decide (getC cs j = '[')) = true) := by
    simp [hne]
  rw [if_neg hc, if_pos hm, ha]

theorem scanGoF_none_clean (cs t : List Char) :
    ∀ i, (∀ p, p ≤ i → getC cs p ≠ ']') → scanGoF cs t (i + 1) i none = 1 := by
  intro i
  induction i with
  | zero => intro _; rfl
  | succ k ih =>
    intro h
    simp only [scanGoF]
    have hc : ¬((decide (getC cs (k + 1) = ']') && !decide (getC cs k = '[')) = true) := by
      simp [h (k + 1) (le_refl _)]
    rw [if_neg hc]
    exact ih (fun p hp => h p (by omega))

theorem scanGoF_some_clean (cs t : List Char) (c0 : Char) (trest : List Char)
    (htok : t = c0 :: trest) :
    ∀ i R, (∀ p, p ≤ i → getC cs p ≠ ']') → (∀ p, p ≤ i → getC cs p ≠ c0) →
      scanGoF cs t (i + 1) i (some R) = 1 := by
  intro i
  induction i with
  | zero => intro R _ _; rfl
  | succ k ih =>
    intro R h1 h2
    have hne := h1 (k + 1) (le_refl _)
    have hm : subAt cs (k + 1) t.length ≠ t := by
      intro hEq
      have hmt : matchAt cs t (k + 1) = true := by
        unfold matchAt
        exact decide_eq_true hEq
      exact h2 (k + 1) (le_refl _) (matchAt_head cs t (k + 1) c0 trest htok hmt)
    rw [scanGoF_step_skip cs t (k + 1) (k + 1) R (by omega) hne hm]
    have e : k + 1 - 1 = k := by omega
    rw [e]
    exact ih R (fun p hp => h1 p (by omega)) (fun p hp => h2 p (by omega))

theorem scanGoF_walk (cs t : List Char) (c0 : Char) (trest : List Char)
    (htok : t = c0 :: trest) :
    ∀ k g0 R, (∀ p, g0 < p → p ≤ g0 + k → getC cs p ≠ ']' ∧ getC cs p ≠ c0) →
      scanGoF cs t (g0 + k + 1) (g0 + k) (some R) =
        scanGoF cs t (g0 + 1) g0 (some R) := by
  intro k
  induction k with
  | zero => intro g0 R _; rfl
  | succ m ih =>
    intro g0 R h
    have hp := h (g0 + m + 1) (by omega) (by omega)
    have hm : subAt cs (g0 + m + 1) t.length ≠ t := by
      intro hEq
      have hmt : matchAt cs t (g0 + m + 1) = true := by
        unfold matchAt
        exact decide_eq_true hEq
      exact hp.2 (matchAt_head cs t _ c0 trest htok hmt)
    show scanGoF cs t (g0 + m + 1 + 1) (g0 + m + 1) (some R) =
      scanGoF cs t (g0 + 1) g0 (some R)
    rw [scanGoF_step_skip cs t (g0 + m + 1) (g0 + m + 1) R (by omega) hp.1 hm]
    have e : g0 + m + 1 - 1 = g0 + m := by omega
    rw [e]
    exact ih g0 R (fun p hp1 hp2 => h p hp1 (by omega))

theorem famTok_chars (f : Bool) : ∀ c ∈ famTok f, c ≠ ']' ∧ c ≠ '[' := by
  cases f <;> decide

theorem digit_not_brackets (c : Char) (h : isDigitC c = true) : c ≠ ']' ∧ c ≠ '[' := by
  constructor <;> intro hc <;> subst hc <;> exact absurd h (by decide)

theorem renderG_eq (f : Bool) (n : Nat) :
    renderG (f, n) = ('[' :: famTok f) ++ (natRepr n ++ [']']) := by
  simp [renderG]

theorem renderG_length (f : Bool) (n : Nat) :
    (renderG (f, n)).length = (famTok f).length + (natRepr n).length + 2 := by
  rw [renderG_eq]
  simp only [List.length_append, List.length_cons, List.length_nil]
  omega

theorem group_interior_mem (f : Bool) (n : Nat) (off : Nat) (h1 : 1 ≤ off)
    (h2 : off ≤ (famTok f).length + (natRepr n).length) :
    getC (renderG (f, n)) off ∈ famTok f ++ natRepr n := by
  obtain ⟨o, rfl⟩ : ∃ o, off = o + 1 := ⟨off - 1, by omega⟩
  have hsh : getC (renderG (f, n)) (o + 1)
      = getC ((famTok f ++ natRepr n) ++ [']']) o := by
    rw [renderG_eq]
    show getC (famTok f ++ (natRepr n ++ [']'])) o
      = getC ((famTok f ++ natRepr n) ++ [']']) o
    rw [List.append_assoc]
  rw [hsh, getC_append_lt _ _ _ (by simp only [List.length_append]; omega)]
  exact getD_mem_of_lt ' ' _ _ (by simp only [List.length_append]; omega)

theorem group_interior_safe (f : Bool) (n : Nat) (off : Nat) (h1 : 1 ≤ off)
    (h2 : off ≤ (famTok f).length + (natRepr n).length) :
    getC (renderG (f, n)) off ≠ ']' ∧ getC (renderG (f, n)) off ≠ '[' := by
  have hm := group_interior_mem f n off h1 h2
  rcases List.mem_append.mp hm with h | h
  · exact famTok_chars f _ h
  · exact digit_not_brackets _ (natRepr_digits n _ h)

theorem renderG_head (f : Bool) (n : Nat) : getC (renderG (f, n)) 0 = '[' := by
  rw [renderG_eq]
  rfl

theorem renderG_last (f : Bool) (n : Nat) :
    getC (renderG (f, n)) ((famTok f).length + (natRepr n).length + 1) = ']' := by
  have hsh : renderG (f, n) = (('[' :: famTok f) ++ natRepr n) ++ [']'] := by
    rw [renderG_eq, List.append_assoc]
  have hlen : (('[' :: famTok f) ++ natRepr n).length
      = (famTok f).length + (natRepr n).length + 1 := by
    simp only [List.length_append, List.length_cons]
    omega
  rw [hsh, getC_append_ge _ _ _ hlen.le]
  have e : (famTok f).length + (natRepr n).length + 1
      - (('[' :: famTok f) ++ natRepr n).length = 0 := by omega
  rw [e]
  rfl

theorem appended_group_last (q : List Char) (g : Bool) (m : Nat) :
    getC (q ++ renderG (g, m))
      (q.length + (famTok g).length + (natRepr m).length + 1) = ']' := by
  rw [getC_append_ge _ _ _ (by omega)]
  have e : q.length + (famTok g).length + (natRepr m).length + 1 - q.length
      = (famTok g).length + (natRepr m).length + 1 := by omega
  rw [e]
  exact renderG_last g m

theorem appended_group_pen (q : List Char) (g : Bool) (m : Nat) :
    getC (q ++ renderG (g, m))
      (q.length + (famTok g).length + (natRepr m).length) ≠ '[' := by
  rw [getC_append_ge _ _ _ (by omega)]
  have e : q.length + (famTok g).length + (natRepr m).length - q.length
      = (famTok g).length + (natRepr m).length := by omega
  rw [e]
  have hds1 : 0 < (natRepr m).length := List.length_pos.mpr (natRepr_ne_nil m)
  exact (group_interior_safe g m _ (by omega) (by omega)).2

theorem drop_append_le {α : Type} : ∀ (q w : List α) (i : Nat), i ≤ q.length →
    (q ++ w).drop i = q.drop i ++ w := by
  intro q
  induction q with
  | nil =>
    intro w i h
    have h0 : i = 0 := by simpa using h
    subst h0
    rfl
  | cons a rest ih =>
    intro w i h
    cases i with
    | zero => rfl
    | succ j =>
      show (rest ++ w).drop j = rest.drop j ++ w
      exact ih w j (by simp only [List.length_cons] at h; omega)

theorem scanGoF_stable (q w t : List Char) (trest : List Char)
    (htok : t = '[' :: trest) (ht4 : t.length ≤ 4)
    (hbr : ∀ j, getC q j = '[' → j + 4 ≤ q.length) :
    ∀ fuel i R, i < q.length → R < q.length →
      scanGoF (q ++ w) t fuel i (some R) = scanGoF q t fuel i (some R) := by
  have ht1 : 1 ≤ t.length := by rw [htok]; simp
  intro fuel
  induction fuel with
  | zero => intro i R _ _; rfl
  | succ fl ih =>
    intro i R hi hR
    cases i with
    | zero => rfl
    | succ k =>
      have e1 : getC (q ++ w) (k + 1) = getC q (k + 1) := getC_append_lt _ _ _ hi
      have e2 : getC (q ++ w) k = getC q k := getC_append_lt _ _ _ (by omega)
      simp only [scanGoF, e1, e2]
      split
      · exact ih (k + 1 - t.length) (k + 1) (by omega) hi
      · by_cases hms : k + 1 + t.length ≤ q.length
        · have esub : subAt (q ++ w) (k + 1) t.length = subAt q (k + 1) t.length := by
            unfold subAt
            rw [drop_append_le q w (k + 1) (by omega)]
            rw [take_append_le _ _ _ (by simp only [List.length_drop]; omega)]
          rw [esub]
          split
          · have eslice : sliceCs (q ++ w) (k + 1 + t.length) R
                = sliceCs q (k + 1 + t.length) R := by
              unfold sliceCs
              rw [take_append_le _ _ _ (by omega)]
            rw [eslice]
            split
            · rfl
            · exact ih k R (by omega) hR
          · exact ih k R (by omega) hR
        · have hsubL : subAt (q ++ w) (k + 1) t.length ≠ t := by
            intro hEq
            have hmt : matchAt (q ++ w) t (k + 1) = true := by
              unfold matchAt
              exact decide_eq_true hEq
            have hh := matchAt_head (q ++ w) t (k + 1) '[' trest htok hmt
            rw [e1] at hh
            have := hbr (k + 1) hh
            omega
          have hsubR : subAt q (k + 1) t.length ≠ t := by
            intro hEq
            have hmt : matchAt q t (k + 1) = true := by
              unfold matchAt
              exact decide_eq_true hEq
            have hh := matchAt_head q t (k + 1) '[' trest htok hmt
            have := hbr (k + 1) hh
            omega
          rw [if_neg hsubL, if_neg hsubR]
          exact ih k R (by omega) hR

theorem scan_from_qm1 (f : Bool) (q w : List Char) (hq1 : 1 ≤ q.length)
    (hbr : ∀ j, getC q j = '[' → j + 4 ≤ q.length)
    (hqend : (∀ c ∈ q, c ≠ '[' ∧ c ≠ ']') ∨
      (getC q (q.length - 1) = ']' ∧ getC q (q.length - 2) ≠ '[' ∧ 2 ≤ q.length))
    (R : Nat) :
    scanGoF (q ++ w) ('[' :: famTok f) (q.length - 1 + 1) (q.length - 1) (some R) =
      scanGoF q ('[' :: famTok f) (q.length - 1 + 1) (q.length - 1) none := by
  rcases hqend with hclean | ⟨he1, he2, hq2⟩
  · have hA : ∀ p, p ≤ q.length - 1 → getC (q ++ w) p ≠ ']' := by
      intro p hp
      rw [getC_append_lt _ _ _ (by omega)]
      exact (hclean _ (getD_mem_of_lt ' ' q p (by omega))).2
    have hB : ∀ p, p ≤ q.length - 1 → getC (q ++ w) p ≠ '[' := by
      intro p hp
      rw [getC_append_lt _ _ _ (by omega)]
      exact (hclean _ (getD_mem_of_lt ' ' q p (by omega))).1
    have hC : ∀ p, p ≤ q.length - 1 → getC q p ≠ ']' := by
      intro p hp
      exact (hclean _ (getD_mem_of_lt ' ' q p (by omega))).2
    rw [scanGoF_some_clean (q ++ w) ('[' :: famTok f) '[' (famTok f) rfl
      (q.length - 1) R hA hB]
    rw [scanGoF_none_clean q ('[' :: famTok f) (q.length - 1) hC]
  · have hq2' : 0 < q.length - 1 := by omega
    have hL1 : getC (q ++ w) (q.length - 1) = ']' := by
      rw [getC_append_lt _ _ _ (by omega)]
      exact he1
    have hL2 : getC (q ++ w) (q.length - 1 - 1) ≠ '[' := by
      rw [getC_append_lt _ _ _ (by omega)]
      have e : q.length - 1 - 1 = q.length - 2 := by omega
      rw [e]
      exact he2
    have hR2 : getC q (q.length - 1 - 1) ≠ '[' := by
      have e : q.length - 1 - 1 = q.length - 2 := by omega
      rw [e]
      exact he2
    rw [scanGoF_step_rbr (q ++ w) ('[' :: famTok f) (q.length - 1) (q.length - 1)
      (some R) hq2' hL1 hL2]
    rw [scanGoF_step_rbr q ('[' :: famTok f) (q.length - 1) (q.length - 1)
      none hq2' he1 hR2]
    exact scanGoF_stable q w ('[' :: famTok f) (famTok f) rfl (by cases f <;> decide)
      hbr (q.length - 1) (q.length - 1 - ('[' :: famTok f).length) (q.length - 1)
      (by omega) (by omega)

theorem group_mismatch (f g : Bool) (hfg : g ≠ f) (m : Nat) (q : List Char) :
    subAt (q ++ renderG (g, m)) q.length ('[' :: famTok f).length
      ≠ '[' :: famTok f := by
  unfold subAt
  rw [List.drop_left]
  cases g <;> cases f
  · exact absurd rfl hfg
  · intro hEq
    have h2 : (renderG (false, m)).take (('[' :: famTok true).length) = ['[', 'k'] := rfl
    rw [h2] at hEq
    exact absurd hEq (by decide)
  · intro hEq
    have h2 : (renderG (true, m)).take (('[' :: famTok false).length)
        = '[' :: 'i' :: (natRepr m ++ [']']).take 2 := rfl
    rw [h2] at hEq
    injection hEq with ha hb
    injection hb with hc hd
    exact absurd hc (by decide)
  · exact absurd rfl hfg

theorem scan_hit_last (f : Bool) (q : List Char) (hq1 : 1 ≤ q.length) (n : Nat) :
    findNextUsableIndexL (q ++ renderG (f, n)) (famTok f) = n + 1 := by
  have hds1 : 0 < (natRepr n).length := List.length_pos.mpr (natRepr_ne_nil n)
  have hfam1 : 0 < (famTok f).length := by cases f <;> decide
  have hL : (q ++ renderG (f, n)).length
      = q.length + (famTok f).length + (natRepr n).length + 2 := by
    rw [List.length_append, renderG_length]
    omega
  show scanGoF (q ++ renderG (f, n)) ('[' :: famTok f)
      ((q ++ renderG (f, n)).length) ((q ++ renderG (f, n)).length - 1) none = n + 1
  rw [hL]
  have e1 : q.length + (famTok f).length + (natRepr n).length + 2 - 1
      = q.length + (famTok f).length + (natRepr n).length + 1 := by omega
  have e0 : q.length + (famTok f).length + (natRepr n).length + 2
      = (q.length + (famTok f).length + (natRepr n).length + 1) + 1 := by omega
  rw [e1, e0]
  rw [scanGoF_step_rbr (q ++ renderG (f, n)) ('[' :: famTok f)
    (q.length + (famTok f).length + (natRepr n).length + 1)
    (q.length + (famTok f).length + (natRepr n).length + 1) none (by omega)
    (appended_group_last q f n)
    (by
      have e : q.length + (famTok f).length + (natRepr n).length + 1 - 1
          = q.length + (famTok f).length + (natRepr n).length := by omega
      rw [e]
      exact appended_group_pen q f n)]
  have e2 : q.length + (famTok f).length + (natRepr n).length + 1
      - ('[' :: famTok f).length = q.length + (natRepr n).length := by
    simp only [List.length_cons]
    omega
  rw [e2]
  rw [scanGoF_fuel_irrel (q ++ renderG (f, n)) ('[' :: famTok f)
    (by simp only [List.length_cons]; omega)
    (q.length + (natRepr n).length)
    (q.length + (famTok f).length + (natRepr n).length + 1)
    (q.length + (natRepr n).length + 1)
    (some (q.length + (famTok f).length + (natRepr n).length + 1))
    (by omega) (by omega)]
  have hwalk : ∀ p, q.length < p → p ≤ q.length + (natRepr n).length →
      getC (q ++ renderG (f, n)) p ≠ ']' ∧ getC (q ++ renderG (f, n)) p ≠ '[' := by
    intro p hp1 hp2
    rw [getC_append_ge _ _ _ (by omega)]
    exact group_interior_safe f n (p - q.length) (by omega) (by omega)
  rw [scanGoF_walk (q ++ renderG (f, n)) ('[' :: famTok f) '[' (famTok f) rfl
    (natRepr n).length q.length
    (q.length + (famTok f).length + (natRepr n).length + 1) hwalk]
  have hstart : getC (q ++ renderG (f, n)) q.length = '[' := by
    rw [getC_append_ge _ _ _ (le_refl _), Nat.sub_self]
    exact renderG_head f n
  have hne : getC (q ++ renderG (f, n)) q.length ≠ ']' := by
    rw [hstart]
    decide
  have hsub : subAt (q ++ renderG (f, n)) q.length ('[' :: famTok f).length
      = '[' :: famTok f := by
    unfold subAt
    rw [List.drop_left, renderG_eq]
    exact List.take_left _ _
  have hatoi : atoiGo (sliceCs (q ++ renderG (f, n))
      (q.length + ('[' :: famTok f).length)
      (q.length + (famTok f).length + (natRepr n).length + 1)) = some n := by
    unfold sliceCs
    have hu : q ++ renderG (f, n) = ((q ++ ('[' :: famTok f)) ++ natRepr n) ++ [']'] := by
      rw [renderG_eq]
      simp only [List.append_assoc]
    rw [hu]
    have hulen : ((q ++ ('[' :: famTok f)) ++ natRepr n).length
        = q.length + (famTok f).length + (natRepr n).length + 1 := by
      simp only [List.length_append, List.length_cons]
      omega
    rw [show q.length + (famTok f).length + (natRepr n).length + 1
        = ((q ++ ('[' :: famTok f)) ++ natRepr n).length from hulen.symm]
    rw [List.take_left]
    rw [show q.length + ('[' :: famTok f).length = (q ++ ('[' :: famTok f)).length
        from (List.length_append _ _).symm]
    rw [List.drop_left]
    exact atoiGo_natRepr n
  exact scanGoF_step_hit (q ++ renderG (f, n)) ('[' :: famTok f) q.length q.length
    (q.length + (famTok f).length + (natRepr n).length + 1) n (by omega) hne hsub hatoi

theorem scan_skip_group (f g : Bool) (hfg : g ≠ f) (m : Nat) (q : List Char)
    (hq1 : 1 ≤ q.length)
    (hbr : ∀ j, getC q j = '[' → j + 4 ≤ q.length)
    (hqend : (∀ c ∈ q, c ≠ '[' ∧ c ≠ ']') ∨
      (getC q (q.length - 1) = ']' ∧ getC q (q.length - 2) ≠ '[' ∧ 2 ≤ q.length)) :
    findNextUsableIndexL (q ++ renderG (g, m)) (famTok f) =
      findNextUsableIndexL q (famTok f) := by
  have hds1 : 0 < (natRepr m).length := List.length_pos.mpr (natRepr_ne_nil m)
  have hfamg1 : 0 < (famTok g).length := by cases g <;> decide
  have hfamf1 : 0 < (famTok f).length := by cases f <;> decide
  have hfamf3 : (famTok f).length ≤ 3 := by cases f <;> decide
  have hL : (q ++ renderG (g, m)).length
      = q.length + (famTok g).length + (natRepr m).length + 2 := by
    rw [List.length_append, renderG_length]
    omega
  show scanGoF (q ++ renderG (g, m)) ('[' :: famTok f)
      ((q ++ renderG (g, m)).length) ((q ++ renderG (g, m)).length - 1) none
    = findNextUsableIndexL q (famTok f)
  rw [hL]
  have e1 : q.length + (famTok g).length + (natRepr m).length + 2 - 1
      = q.length + (famTok g).length + (natRepr m).length + 1 := by omega
  have e0 : q.length + (famTok g).length + (natRepr m).length + 2
      = (q.length + (famTok g).length + (natRepr m).length + 1) + 1 := by omega
  rw [e1, e0]
  rw [scanGoF_step_rbr (q ++ renderG (g, m)) ('[' :: famTok f)
    (q.length + (famTok g).length + (natRepr m).length + 1)
    (q.length + (famTok g).length + (natRepr m).length + 1) none (by omega)
    (appended_group_last q g m)
    (by
      have e : q.length + (famTok g).length + (natRepr m).length + 1 - 1
          = q.length + (famTok g).length + (natRepr m).length := by omega
      rw [e]
      exact appended_group_pen q g m)]
  by_cases hcase : (famTok f).length ≤ (famTok g).length + (natRepr m).length
  · have e2 : q.length + (famTok g).length + (natRepr m).length + 1
        - ('[' :: famTok f).length
        = q.length + ((famTok g).length + (natRepr m).length - (famTok f).length) := by
      simp only [List.length_cons]
      omega
    rw [e2]
    rw [scanGoF_fuel_irrel (q ++ renderG (g, m)) ('[' :: famTok f)
      (by simp only [List.length_cons]; omega)
      (q.length + ((famTok g).length + (natRepr m).length - (famTok f).length))
      (q.length + (famTok g).length + (natRepr m).length + 1)
      (q.length + ((famTok g).length + (natRepr m).length - (famTok f).length) + 1)
      (some (q.length + (famTok g).length + (natRepr m).length + 1))
      (by omega) (by omega)]
    have hwalkg : ∀ p, q.length < p →
        p ≤ q.length + ((famTok g).length + (natRepr m).length - (famTok f).length) →
        getC (q ++ renderG (g, m)) p ≠ ']' ∧ getC (q ++ renderG (g, m)) p ≠ '[' := by
      intro p hp1 hp2
      rw [getC_append_ge _ _ _ (by omega)]
      exact group_interior_safe g m (p - q.length) (by omega) (by omega)
    rw [scanGoF_walk (q ++ renderG (g, m)) ('[' :: famTok f) '[' (famTok f) rfl
      ((famTok g).length + (natRepr m).length - (famTok f).length) q.length
      (q.length + (famTok g).length + (natRepr m).length + 1) hwalkg]
    have hstart : getC (q ++ renderG (g, m)) q.length = '[' := by
      rw [getC_append_ge _ _ _ (le_refl _), Nat.sub_self]
      exact renderG_head g m
    have hnotrb : getC (q ++ renderG (g, m)) q.length ≠ ']' := by
      rw [hstart]
      decide
    rw [scanGoF_step_skip (q ++ renderG (g, m)) ('[' :: famTok f) q.length q.length
      (q.length + (famTok g).length + (natRepr m).length + 1) (by omega) hnotrb
      (group_mismatch f g hfg m q)]
    rw [scanGoF_fuel_irrel (q ++ renderG (g, m)) ('[' :: famTok f)
      (by simp only [List.length_cons]; omega) (q.length - 1) q.length
      (q.length - 1 + 1)
      (some (q.length + (famTok g).length + (natRepr m).length + 1))
      (by omega) (by omega)]
    rw [scan_from_qm1 f q (renderG (g, m)) hq1 hbr hqend
      (q.length + (famTok g).length + (natRepr m).length + 1)]
    rw [scanGoF_fuel_irrel q ('[' :: famTok f)
      (by simp only [List.length_cons]; omega) (q.length - 1) (q.length - 1 + 1)
      q.length none (by omega) (by omega)]
    rfl
  · have e2 : q.length + (famTok g).length + (natRepr m).length + 1
        - ('[' :: famTok f).length = q.length - 1 := by
      simp only [List.length_cons]
      omega
    rw [e2]
    rw [scanGoF_fuel_irrel (q ++ renderG (g, m)) ('[' :: famTok f)
      (by simp only [List.length_cons]; omega) (q.length - 1)
      (q.length + (famTok g).length + (natRepr m).length + 1)
      (q.length - 1 + 1)
      (some (q.length + (famTok g).length + (natRepr m).length + 1))
      (by omega) (by omega)]
    rw [scan_from_qm1 f q (renderG (g, m)) hq1 hbr hqend
      (q.length + (famTok g).length + (natRepr m).length + 1)]
    rw [scanGoF_fuel_irrel q ('[' :: famTok f)
      (by simp only [List.length_cons]; omega) (q.length - 1) (q.length - 1 + 1)
      q.length none (by omega) (by omega)]
    rfl

theorem path_brackets (base : List Char) (hbase : ∀ c ∈ base, c ≠ '[' ∧ c ≠ ']') :
    ∀ gs : List (Bool × Nat), ∀ j, getC (base ++ renderGs gs) j = '[' →
      j + 4 ≤ (base ++ renderGs gs).length := by
  intro gs
  induction gs using List.reverseRecOn with
  | nil =>
    intro j hj
    exfalso
    rw [show renderGs ([] : List (Bool × Nat)) = [] from rfl, List.append_nil] at hj
    by_cases hjl : j < base.length
    · exact (hbase _ (getD_mem_of_lt ' ' base j hjl)).1 hj
    · rw [getC_ge_len base j (by omega)] at hj
      exact absurd hj (by decide)
  | append_singleton gs g ih =>
    obtain ⟨f, n⟩ := g
    intro j hj
    have hds1 : 0 < (natRepr n).length := List.length_pos.mpr (natRepr_ne_nil n)
    have hfam1 : 0 < (famTok f).length := by cases f <;> decide
    have hsplit : base ++ renderGs (gs ++ [(f, n)])
        = (base ++ renderGs gs) ++ renderG (f, n) := by
      rw [renderGs_append, List.append_assoc]
    rw [hsplit] at hj ⊢
    have hGlen := renderG_length f n
    have hlen2 : ((base ++ renderGs gs) ++ renderG (f, n)).length
        = (base ++ renderGs gs).length + (renderG (f, n)).length :=
      List.length_append _ _
    by_cases hjl : j < (base ++ renderGs gs).length
    · rw [getC_append_lt _ _ _ hjl] at hj
      have := ih j hj
      omega
    · rw [getC_append_ge _ _ _ (by omega)] at hj
      by_cases h0 : j - (base ++ renderGs gs).length = 0
      · omega
      · by_cases hjh : j - (base ++ renderGs gs).length
            ≤ (famTok f).length + (natRepr n).length
        · exact absurd hj (group_interior_safe f n _ (by omega) hjh).2
        · by_cases hlast : j - (base ++ renderGs gs).length
              = (famTok f).length + (natRepr n).length + 1
          · rw [hlast, renderG_last] at hj
            exact absurd hj (by decide)
          · rw [getC_ge_len _ _ (by omega)] at hj
            exact absurd hj (by decide)

theorem path_end_group (pref : List Char) (g : Bool) (m : Nat) :
    getC (pref ++ renderG (g, m)) ((pref ++ renderG (g, m)).length - 1) = ']'
    ∧ getC (pref ++ renderG (g, m)) ((pref ++ renderG (g, m)).length - 2) ≠ '['
    ∧ 2 ≤ (pref ++ renderG (g, m)).length := by
  have hds1 : 0 < (natRepr m).length := List.length_pos.mpr (natRepr_ne_nil m)
  have hfam1 : 0 < (famTok g).length := by cases g <;> decide
  have hL : (pref ++ renderG (g, m)).length
      = pref.length + (famTok g).length + (natRepr m).length + 2 := by
    rw [List.length_append, renderG_length]
    omega
  refine ⟨?_, ?_, ?_⟩
  · rw [hL]
    have e : pref.length + (famTok g).length + (natRepr m).length + 2 - 1
        = pref.length + (famTok g).length + (natRepr m).length + 1 := by omega
    rw [e]
    exact appended_group_last pref g m
  · rw [hL]
    have e : pref.length + (famTok g).length + (natRepr m).length + 2 - 2
        = pref.length + (famTok g).length + (natRepr m).length := by omega
    rw [e]
    exact appended_group_pen pref g m
  · omega

theorem path_wf_end (base : List Char) (hbase : ∀ c ∈ base, c ≠ '[' ∧ c ≠ ']') :
    ∀ gs : List (Bool × Nat),
      (∀ c ∈ base ++ renderGs gs, c ≠ '[' ∧ c ≠ ']') ∨
      (getC (base ++ renderGs gs) ((base ++ renderGs gs).length - 1) = ']'
        ∧ getC (base ++ renderGs gs) ((base ++ renderGs gs).length - 2) ≠ '['
        ∧ 2 ≤ (base ++ renderGs gs).length) := by
  intro gs
  induction gs using List.reverseRecOn with
  | nil =>
    left
    intro c hc
    rw [show renderGs ([] : List (Bool × Nat)) = [] from rfl, List.append_nil] at hc
    exact hbase c hc
  | append_singleton gs g _ =>
    right
    obtain ⟨gf, gn⟩ := g
    have hsplit : base ++ renderGs (gs ++ [(gf, gn)])
        = (base ++ renderGs gs) ++ renderG (gf, gn) := by
      rw [renderGs_append, List.append_assoc]
    rw [hsplit]
    exact path_end_group (base ++ renderGs gs) gf gn

theorem alloc_spec (base : List Char) (hb : 1 ≤ base.length)
    (hbase : ∀ c ∈ base, c ≠ '[' ∧ c ≠ ']') :
    ∀ (gs : List (Bool × Nat)) (f : Bool),
      findNextUsableIndexL (base ++ renderGs gs) (famTok f) = lastNum0 f gs + 1 := by
  intro gs
  induction gs using List.reverseRecOn with
  | nil =>
    intro f
    rw [show renderGs ([] : List (Bool × Nat)) = [] from rfl, List.append_nil]
    show scanGoF base ('[' :: famTok f) base.length (base.length - 1) none
      = lastNum0 f [] + 1
    rw [scanGoF_fuel_irrel base ('[' :: famTok f)
      (by simp only [List.length_cons]; omega) (base.length - 1) base.length
      (base.length - 1 + 1) none (by omega) (by omega)]
    rw [scanGoF_none_clean base ('[' :: famTok f) (base.length - 1)
      (fun p hp => (hbase _ (getD_mem_of_lt ' ' base p (by omega))).2)]
    rfl
  | append_singleton gs g ih =>
    intro f
    obtain ⟨gf, gn⟩ := g
    have hsplit : base ++ renderGs (gs ++ [(gf, gn)])
        = (base ++ renderGs gs) ++ renderG (gf, gn) := by
      rw [renderGs_append, List.append_assoc]
    rw [hsplit]
    have hq1 : 1 ≤ (base ++ renderGs gs).length := by
      rw [List.length_append]
      omega
    by_cases hgf : gf = f
    · subst hgf
      rw [scan_hit_last gf (base ++ renderGs gs) hq1 gn]
      unfold lastNum0
      rw [lastNumO_concat, if_pos rfl]
      rfl
    · rw [scan_skip_group f gf hgf gn (base ++ renderGs gs) hq1
        (path_brackets base hbase gs) (path_wf_end base hbase gs)]
      rw [ih f]
      unfold lastNum0
      rw [lastNumO_concat, if_neg hgf]

theorem data_append_str (s t : String) : (s ++ t).toList = s.toList ++ t.toList := rfl

theorem toList_path_step (name : String) (f : Bool) (k : Nat) :
    (name ++ "[" ++ (famStr f ++ natReprS k) ++ "]").toList
      = name.toList ++ renderG (f, k) := by
  rw [data_append_str, data_append_str, data_append_str, data_append_str]
  rw [famStr_toList]
  rw [show (natReprS k).toList = natRepr k from rfl]
  rw [show ("[" : String).toList = ['['] from rfl]
  rw [show ("]" : String).toList = [']'] from rfl]
  rw [renderG_eq]
  simp only [List.append_assoc, List.cons_append, List.nil_append]

theorem famId_inj (f f' : Bool) (k k' : Nat)
    (h : famStr f ++ natReprS k = famStr f' ++ natReprS k') : f = f' ∧ k = k' := by
  have hd : famTok f ++ natRepr k = famTok f' ++ natRepr k' := by
    have h2 : (famStr f ++ natReprS k).toList = (famStr f' ++ natReprS k').toList := by
      rw [h]
    rw [data_append_str, data_append_str, famStr_toList, famStr_toList] at h2
    exact h2
  cases f <;> cases f'
  · refine ⟨rfl, ?_⟩
    injection hd with h1 h2
    injection h2 with h3 h4
    injection h4 with h5 h6
    exact natRepr_injective _ _ h6
  · exfalso
    injection hd with h1 h2
    exact absurd h1 (by decide)
  · exfalso
    injection hd with h1 h2
    exact absurd h1 (by decide)
  · refine ⟨rfl, ?_⟩
    injection hd with h1 h2
    exact natRepr_injective _ _ h2

theorem idsTrace_spec (base0 : List Char) (hb : 1 ≤ base0.length)
    (hbase : ∀ c ∈ base0, c ≠ '[' ∧ c ≠ ']') :
    ∀ (c : Chain) (name : String) (gs : List (Bool × Nat)),
      name.toList = base0 ++ renderGs gs →
      (∀ id ∈ idsTrace name c,
        ∃ f k, id = famStr f ++ natReprS k ∧ lastNum0 f gs < k)
      ∧ (idsTrace name c).Nodup := by
  intro c
  induction c with
  | stopC =>
    intro name gs hn
    constructor
    · intro id hid
      exact absurd hid (List.not_mem_nil id)
    · exact List.nodup_nil
  | seqC c ih =>
    intro name gs hn
    have hidx : findNextUsableIndex name "i" = lastNum0 true gs + 1 := by
      rw [findNextUsableIndex_eq_L]
      rw [show ("i" : String).toList = famTok true from rfl]
      rw [hn]
      exact alloc_spec base0 hb hbase gs true
    simp only [idsTrace]
    rw [hidx]
    have hstep : (name ++ "[" ++ ("i" ++ natReprS (lastNum0 true gs + 1)) ++ "]").toList
        = name.toList ++ renderG (true, lastNum0 true gs + 1) :=
      toList_path_step name true (lastNum0 true gs + 1)
    have hn' : (name ++ "[" ++ ("i" ++ natReprS (lastNum0 true gs + 1)) ++ "]").toList
        = base0 ++ renderGs (gs ++ [(true, lastNum0 true gs + 1)]) := by
      rw [hstep, hn, renderGs_append, List.append_assoc]
    obtain ⟨htail_mem, htail_nodup⟩ :=
      ih (name ++ "[" ++ ("i" ++ natReprS (lastNum0 true gs + 1)) ++ "]")
        (gs ++ [(true, lastNum0 true gs + 1)]) hn'
    have hmono : ∀ f', lastNum0 f' gs
        ≤ lastNum0 f' (gs ++ [(true, lastNum0 true gs + 1)]) := by
      intro f'
      have hcon := lastNumO_concat f' gs (true, lastNum0 true gs + 1)
      show (lastNumO f' gs).getD 0
        ≤ (lastNumO f' (gs ++ [(true, lastNum0 true gs + 1)])).getD 0
      rw [hcon]
      by_cases hf' : (true, lastNum0 true gs + 1).1 = f'
      · rw [if_pos hf']
        have hff : f' = true := hf'.symm
        rw [hff]
        have e : (some ((true, lastNum0 true gs + 1).2)).getD 0
            = lastNum0 true gs + 1 := rfl
        rw [e]
        have e2 : lastNum0 true gs = (lastNumO true gs).getD 0 := rfl
        omega
      · rw [if_neg hf']
    constructor
    · intro id hid
      rcases List.mem_cons.mp hid with hhead | htail
      · exact ⟨true, lastNum0 true gs + 1, by rw [hhead]; rfl, by omega⟩
      · obtain ⟨f', k, hk, hlt⟩ := htail_mem id htail
        exact ⟨f', k, hk, lt_of_le_of_lt (hmono f') hlt⟩
    · refine List.nodup_cons.mpr ⟨?_, htail_nodup⟩
      intro hmem
      obtain ⟨f', k, hk, hlt⟩ := htail_mem _ hmem
      obtain ⟨hf, hkk⟩ := famId_inj true f' (lastNum0 true gs + 1) k hk
      have hlast : lastNum0 true (gs ++ [(true, lastNum0 true gs + 1)])
          = lastNum0 true gs + 1 := by
        show (lastNumO true (gs ++ [(true, lastNum0 true gs + 1)])).getD 0
          = lastNum0 true gs + 1
        rw [lastNumO_concat, if_pos rfl]
        rfl
      rw [← hf] at hlt
      rw [hlast] at hlt
      omega
  | mapC c ih =>
    intro name gs hn
    have hidx : findNextUsableIndex name "key" = lastNum0 false gs + 1 := by
      rw [findNextUsableIndex_eq_L]
      rw [show ("key" : String).toList = famTok false from rfl]
      rw [hn]
      exact alloc_spec base0 hb hbase gs false
    simp only [idsTrace]
    rw [hidx]
    have hstep : (name ++ "[" ++ ("key" ++ natReprS (lastNum0 false gs + 1)) ++ "]").toList
        = name.toList ++ renderG (false, lastNum0 false gs + 1) :=
      toList_path_step name false (lastNum0 false gs + 1)
    have hn' : (name ++ "[" ++ ("key" ++ natReprS (lastNum0 false gs + 1)) ++ "]").toList
        = base0 ++ renderGs (gs ++ [(false, lastNum0 false gs + 1)]) := by
      rw [hstep, hn, renderGs_append, List.append_assoc]
    obtain ⟨htail_mem, htail_nodup⟩ :=
      ih (name ++ "[" ++ ("key" ++ natReprS (lastNum0 false gs + 1)) ++ "]")
        (gs ++ [(false, lastNum0 false gs + 1)]) hn'
    have hmono : ∀ f', lastNum0 f' gs
        ≤ lastNum0 f' (gs ++ [(false, lastNum0 false gs + 1)]) := by
      intro f'
      have hcon := lastNumO_concat f' gs (false, lastNum0 false gs + 1)
      show (lastNumO f' gs).getD 0
        ≤ (lastNumO f' (gs ++ [(false, lastNum0 false gs + 1)])).getD 0
      rw [hcon]
      by_cases hf' : (false, lastNum0 false gs + 1).1 = f'
      · rw [if_pos hf']
        have hff : f' = false := hf'.symm
        rw [hff]
        have e : (some ((false, lastNum0 false gs + 1).2)).getD 0
            = lastNum0 false gs + 1 := rfl
        rw [e]
        have e2 : lastNum0 false gs = (lastNumO false gs).getD 0 := rfl
        omega
      · rw [if_neg hf']
    constructor
    · intro id hid
      rcases List.mem_cons.mp hid with hhead | htail
      · exact ⟨false, lastNum0 false gs + 1, by rw [hhead]; rfl, by omega⟩
      · obtain ⟨f', k, hk, hlt⟩ := htail_mem id htail
        exact ⟨f', k, hk, lt_of_le_of_lt (hmono f') hlt⟩
    · refine List.nodup_cons.mpr ⟨?_, htail_nodup⟩
      intro hmem
      obtain ⟨f', k, hk, hlt⟩ := htail_mem _ hmem
      obtain ⟨hf, hkk⟩ := famId_inj false f' (lastNum0 false gs + 1) k hk
      have hlast : lastNum0 false (gs ++ [(false, lastNum0 false gs + 1)])
          = lastNum0 false gs + 1 := by
        show (lastNumO false (gs ++ [(false, lastNum0 false gs + 1)])).getD 0
          = lastNum0 false gs + 1
        rw [lastNumO_concat, if_pos rfl]
        rfl
      rw [← hf] at hlt
      rw [hlast] at hlt
      omega

/-- Claim C4: for every new iteration construct the allocator scans the
current path expression for the number of the last already-used identifier
of the relevant family (the index family `i1, i2, ...` for
sequences/arrays, the key family `key1, key2, ...` for maps — on
generator-produced paths the last used number is the highest) and
allocates the next integer; consequently, along any chain of nested
sequence and map levels starting from a bracket-free subject path, the
auxiliary loop identifiers allocated by `parseSlice`/`parseMap` via
`findNextUsableIndex` are pairwise distinct. -/
theorem c4_identifier_allocation :
    (∀ (name : String) (base : List Char) (gs : List (Bool × Nat)) (f : Bool),
      1 ≤ base.length → (∀ ch ∈ base, ch ≠ '[' ∧ ch ≠ ']') →
      name.toList = base ++ renderGs gs →
      findNextUsableIndex name (famStr f) = lastNum0 f gs + 1)
    ∧ (∀ (name : String) (c : Chain),
      1 ≤ name.toList.length → (∀ ch ∈ name.toList, ch ≠ '[' ∧ ch ≠ ']') →
      (idsTrace name c).Nodup) := by
  constructor
  · intro name base gs f hb hbase hn
    rw [findNextUsableIndex_eq_L, famStr_toList, hn]
    exact alloc_spec base hb hbase gs f
  · intro name c hb hbase
    refine (idsTrace_spec name.toList hb hbase c name [] ?_).2
    rw [show renderGs ([] : List (Bool × Nat)) = [] from rfl, List.append_nil]

/-- Witness for c4_identifier_allocation: on the concrete path
`t1.v[i1][key3]` the next index-family identifier number is `2`, and the
identifiers allocated along the nesting chain sequence-map-sequence from
the subject path `t1.v` are pairwise distinct. -/
theorem c4_identifier_allocation_witness :
    findNextUsableIndex "t1.v[i1][key3]" (famStr true)
      = lastNum0 true [(true, 1), (false, 3)] + 1
    ∧ (idsTrace "t1.v" (Chain.seqC (Chain.mapC (Chain.seqC Chain.stopC)))).Nodup :=
  ⟨c4_identifier_allocation.1 "t1.v[i1][key3]" "t1.v".toList [(true, 1), (false, 3)]
      true (by decide) (by decide) (by decide),
   c4_identifier_allocation.2 "t1.v" (Chain.seqC (Chain.mapC (Chain.seqC Chain.stopC)))
      (by decide) (by decide)⟩
